import Mathlib

/-!
# Keyword scanner over a prefix tree: a verification development

Shallow embedding of the matching engine of the repository.

* `TireMatching` embeds `src/TireMatching.js` (class `Trie`: `append`, `match`,
  `insert`, `query`).
* `Optimized` embeds `src/1-javaScript/TrieMatching-optimized.js` (classes `TrieNode`
  and `Trie`).
* `PHP` embeds `src/0-PHP/match.php` (class `Trie`).
* `Heap` embeds `src/TireMatching.js` a second time, on an explicit object store: the
  methods receive references, and every read and write of an object is one read or
  write of the store. It is the embedding for what a method leaves unchanged.

Conventions of the embedding.

* A JavaScript string is segmented by `Array.from` into its code points; a Lean
  `String` is a list of `Char`, so `Array.from(s)` is `s.toList` and
  `units.join('')` is `String.mk units`.
* An object used as a map (`node.next`) is a function `Char → Option Node`:
  `hasOwnProperty(k)` is `(next k).isSome`, `next[k] = v` is `Function.update`.
  Only keys that are single code points are ever stored, so the lookup of
  `undefined` (the value of `shift()` on an empty array, converted to the key
  "undefined") finds nothing.
* The arrays `words` and `matched` are shared and mutated in place by `query`;
  the embedding passes them in and returns their final contents.
* `query` and `insert` call themselves once per unit. Where the depth of the call stack
  matters, the methods take the number `frames` of nested calls there is room for, and
  return `none` for the `RangeError` raised when a call finds no frame left.
* A PHP array used as a map is the list of its key and value pairs in insertion order
  (`getKey`, `setKey`). PHP stores a key that is a decimal integer string under the
  integer, one to one, which the lookup by string equality reproduces. PHP arrays are
  values: `query` of `match.php` shifts units off its own copy of `$words`.
-/

set_option linter.unusedVariables false

/-! # The embedding of the source -/

namespace TireMatching

/-- The sentinel unit pushed behind every keyword: the grave accent, U+0060. -/
def sentinel : Char := Char.ofNat 96

/-- A trie node `{ depth, next }` of `src/TireMatching.js`. -/
structure Node where
  depth : Nat
  next : Char → Option Node

/-- The object literal `{ depth: d, next: {} }`. -/
def Node.fresh (d : Nat) : Node := { depth := d, next := fun _ => none }

/-- The class `Trie`: the fields `root` and `matched`. -/
structure Trie where
  root : Node
  matched : List String

/-- The constructor: `root = { depth: 0, next: {} }`, `matched = []`. -/
def Trie.new : Trie := { root := Node.fresh 0, matched := [] }

/-- The method `insert(node, words)`. The source mutates `node` in place; the embedding
returns the node after the call. -/
def insert (node : Node) : List Char → Node
  | [] => node
  | word :: words =>
    match node.next word with
    | some child =>
      { node with next := Function.update node.next word (some (insert child words)) }
    | none =>
      let tmpNode : Node := Node.fresh (node.depth + 1)
      { node with next := Function.update node.next word (some (insert tmpNode words)) }

/-- The method `append(keyword)`: the code points of the keyword, then the sentinel. -/
def Trie.append (t : Trie) (keyword : String) : Trie :=
  { t with root := insert t.root (keyword.toList ++ [sentinel]) }

/-- The method `query(node, words, matched)`. Returns the boolean result together with
the contents of the arrays `words` and `matched` after the call. -/
def query (node : Node) : List Char → List Char → Bool × List Char × List Char
  | [], _ => (false, [], [])
  | word :: words, matched =>
    match node.next word with
    | some child =>
      if (child.next sentinel).isSome then (true, words, matched ++ [word])
      else query child words (matched ++ [word])
    | none => (false, words, [])

theorem query_length_le (node : Node) (words matched : List Char) :
    (query node words matched).2.1.length ≤ words.length := by
  induction words generalizing node matched with
  | nil => simp [query]
  | cons w ws ih =>
    simp only [query]
    cases hn : node.next w with
    | none => simp
    | some child =>
      by_cases ht : (child.next sentinel).isSome
      · simp [ht]
      · simpa [ht] using Nat.le_succ_of_le (ih child (matched ++ [w]))

theorem query_length_lt (node : Node) (words matched : List Char) (h : words.length > 0) :
    (query node words matched).2.1.length < words.length := by
  cases words with
  | nil => simp at h
  | cons w ws =>
    simp only [query]
    cases hn : node.next w with
    | none => simp
    | some child =>
      by_cases ht : (child.next sentinel).isSome
      · simp [ht]
      · simpa [ht] using Nat.lt_succ_of_le (query_length_le child ws (matched ++ [w]))

/-- The `while (words.length > 0)` loop of `match`; `acc` is `this.matched`. Each turn
runs `query` from the root on the shared array, pushes the joined units on success and
then does `words.shift()`. -/
def matchLoop (root : Node) (words : List Char) (acc : List String) : List String :=
  if h : words.length > 0 then
    let r := query root words []
    matchLoop root (r.2.1.drop 1) (if r.1 then acc ++ [String.mk r.2.2] else acc)
  else acc
termination_by words.length
decreasing_by
  have := query_length_lt root words [] h
  simp only [List.length_drop]
  omega

/-- The method `match(str)`: the trie after the call (its `matched` field overwritten)
and the returned list. -/
def Trie.match (t : Trie) (str : String) : Trie × List String :=
  let m := matchLoop t.root str.toList []
  ({ t with matched := m }, m)

/-- The driver loop `keywords.forEach(keyword => trie.append(keyword))`. -/
def Trie.appendAll (t : Trie) (keywords : List String) : Trie :=
  keywords.foldl Trie.append t

/-! ### The same methods on a call stack of bounded depth -/

/-- The method `query(node, words, matched)` on a call stack with room for `frames`
nested calls of `query`: every call takes one frame, and a call made when no frame is
left raises `RangeError` (maximum call stack size exceeded), which is the result
`none`. -/
def queryFrames : Nat → Node → List Char → List Char → Option (Bool × List Char × List Char)
  | 0, _, _, _ => none
  | _ + 1, _, [], _ => some (false, [], [])
  | frames + 1, node, word :: words, matched =>
    match node.next word with
    | some child =>
      if (child.next sentinel).isSome then some (true, words, matched ++ [word])
      else queryFrames frames child words (matched ++ [word])
    | none => some (false, words, [])

theorem queryFrames_eq_query (frames : Nat) (node : Node) (words matched : List Char)
    (r : Bool × List Char × List Char)
    (h : queryFrames frames node words matched = some r) : r = query node words matched := by
  induction frames generalizing node words matched with
  | zero => simp [queryFrames] at h
  | succ frames ih =>
    cases words with
    | nil => simpa [queryFrames, query, eq_comm] using h
    | cons w ws =>
      simp only [queryFrames, query] at h ⊢
      cases hn : node.next w with
      | none => simpa [hn, eq_comm] using h
      | some child =>
        simp only [hn] at h ⊢
        by_cases ht : (child.next sentinel).isSome
        · simpa [ht, eq_comm] using h
        · simp only [ht, Bool.false_eq_true, if_false] at h ⊢
          exact ih _ _ _ h

/-- The loop of `match` on a call stack with room for `frames` nested calls of `query`:
an exception raised by `query` leaves the loop and `match`. -/
def matchLoopFrames (frames : Nat) (root : Node) (words : List Char) (acc : List String) :
    Option (List String) :=
  if h : words.length > 0 then
    match hq : queryFrames frames root words [] with
    | none => none
    | some r =>
      matchLoopFrames frames root (r.2.1.drop 1)
        (if r.1 then acc ++ [String.mk r.2.2] else acc)
  else some acc
termination_by words.length
decreasing_by
  have hr := queryFrames_eq_query _ _ _ _ _ hq
  have := query_length_lt root words [] h
  rw [hr]
  simp only [List.length_drop]
  omega

/-- The method `match(str)` on a call stack with room for `frames` nested calls of
`query`: `none` when the call raises. -/
def Trie.matchFrames (t : Trie) (frames : Nat) (str : String) :
    Option (Trie × List String) :=
  (matchLoopFrames frames t.root str.toList []).map (fun m => ({ t with matched := m }, m))

end TireMatching

/-! ## The variant with an end-of-word flag -/

namespace Optimized

open TireMatching (sentinel)

/-- The class `TrieNode` of `src/1-javaScript/TrieMatching-optimized.js`. -/
structure TrieNode where
  depth : Nat
  children : Char → Option TrieNode
  isEndOfWord : Bool

/-- The constructor `new TrieNode()`. -/
def TrieNode.new : TrieNode := { depth := 0, children := fun _ => none, isEndOfWord := false }

/-- The class `Trie`: the fields `root` and `matched`. -/
structure Trie where
  root : TrieNode
  matched : List String

/-- The constructor of `Trie`. -/
def Trie.new : Trie := { root := TrieNode.new, matched := [] }

/-- The method `insert(node, words)`: on an empty array the flag of the node is set;
otherwise the child for the first unit is created when absent and the rest is inserted
below it. -/
def insert (node : TrieNode) : List Char → TrieNode
  | [] => { node with isEndOfWord := true }
  | word :: words =>
    match node.children word with
    | some child =>
      { node with children := Function.update node.children word (some (insert child words)) }
    | none =>
      { node with
        children := Function.update node.children word (some (insert TrieNode.new words)) }

/-- The method `append(keyword)`: the code points of the keyword, then the sentinel. -/
def Trie.append (t : Trie) (keyword : String) : Trie :=
  { t with root := insert t.root (keyword.toList ++ [sentinel]) }

/-- The method `query(node, words, matched)`, with the final contents of the two
arrays. -/
def query (node : TrieNode) : List Char → List Char → Bool × List Char × List Char
  | [], _ => (false, [], [])
  | word :: words, matched =>
    match node.children word with
    | some childNode =>
      if childNode.isEndOfWord then (true, words, matched ++ [word])
      else query childNode words (matched ++ [word])
    | none => (false, words, [])

theorem optimized_query_length_le (node : TrieNode) (words matched : List Char) :
    (query node words matched).2.1.length ≤ words.length := by
  induction words generalizing node matched with
  | nil => simp [query]
  | cons w ws ih =>
    simp only [query]
    cases hn : node.children w with
    | none => simp
    | some child =>
      by_cases ht : child.isEndOfWord
      · simp [ht]
      · simpa [ht] using Nat.le_succ_of_le (ih child (matched ++ [w]))

theorem optimized_query_length_lt (node : TrieNode) (words matched : List Char) (h : words.length > 0) :
    (query node words matched).2.1.length < words.length := by
  cases words with
  | nil => simp at h
  | cons w ws =>
    simp only [query]
    cases hn : node.children w with
    | none => simp
    | some child =>
      by_cases ht : child.isEndOfWord
      · simp [ht]
      · simpa [ht] using Nat.lt_succ_of_le (optimized_query_length_le child ws (matched ++ [w]))

/-- The `while (words.length > 0)` loop of `match`. -/
def matchLoop (root : TrieNode) (words : List Char) (acc : List String) : List String :=
  if h : words.length > 0 then
    let r := query root words []
    matchLoop root (r.2.1.drop 1) (if r.1 then acc ++ [String.mk r.2.2] else acc)
  else acc
termination_by words.length
decreasing_by
  have := optimized_query_length_lt root words [] h
  simp only [List.length_drop]
  omega

/-- The method `match(str)`. -/
def Trie.match (t : Trie) (str : String) : Trie × List String :=
  let m := matchLoop t.root str.toList []
  ({ t with matched := m }, m)

/-- The driver loop `keywords.forEach(keyword => trie.append(keyword))`. -/
def Trie.appendAll (t : Trie) (keywords : List String) : Trie :=
  keywords.foldl Trie.append t

end Optimized

/-! ## The PHP implementation -/

namespace PHP

/-- A code point as a PHP string of one character. -/
def unit (c : Char) : String := String.mk [c]

/-- The sentinel string pushed behind every keyword: the grave accent. -/
def sentinel : String := unit TireMatching.sentinel

/-- A node `array('depth' => int, 'next' => array(...))` of `src/0-PHP/match.php`. The
array `next` is kept as the list of its key and value pairs in insertion order. -/
structure Node where
  depth : Nat
  next : List (String × Node)

/-- The lookup `$next[$key]`, present or not (`isset`). -/
def getKey : List (String × Node) → String → Option Node
  | [], _ => none
  | (k, v) :: rest, key => if k = key then some v else getKey rest key

/-- The assignment `$next[$key] = $value`: the value under an existing key is replaced
in place, a new key goes to the end. -/
def setKey : List (String × Node) → String → Node → List (String × Node)
  | [], key, value => [(key, value)]
  | (k, v) :: rest, key, value =>
    if k = key then (k, value) :: rest else (k, v) :: setKey rest key value

theorem getKey_sizeOf (l : List (String × Node)) (key : String) (child : Node)
    (h : getKey l key = some child) : sizeOf child < sizeOf l := by
  induction l with
  | nil => simp [getKey] at h
  | cons e rest ih =>
    obtain ⟨k, v⟩ := e
    simp only [getKey] at h
    by_cases hk : k = key
    · simp only [hk, if_true, Option.some.injEq] at h
      subst h
      simp only [List.cons.sizeOf_spec, Prod.mk.sizeOf_spec]
      omega
    · simp only [hk, if_false] at h
      have := ih h
      simp only [List.cons.sizeOf_spec]
      omega

/-- The class `Trie`: the private fields `$root` and `$matched`. -/
structure Trie where
  root : Node
  matched : List String

/-- The initial values of the fields. -/
def Trie.new : Trie := { root := { depth := 0, next := [] }, matched := [] }

/-- The library call `preg_split('/(?<!^)(?!$)/u', $s)`: the subject is cut at every
position that is neither its start nor a position where `$` matches. `$` matches at
the very end of the subject and before a line feed that is its last character, so a
subject of two or more characters that ends in a line feed keeps its last two characters
together; the empty subject gives one empty string; every other subject gives its code
points. -/
def preg_split (s : String) : List String :=
  if 2 ≤ s.toList.length ∧ s.toList.getLast? = some '\n' then
    (s.toList.take (s.toList.length - 2)).map unit
      ++ [String.mk (s.toList.drop (s.toList.length - 2))]
  else if s.toList = [] then [""]
  else s.toList.map unit

/-- The method `insert(&$node, $words)`; the node after the call is returned. -/
def insert (node : Node) : List String → Node
  | [] => node
  | word :: words =>
    match getKey node.next word with
    | some child => { node with next := setKey node.next word (insert child words) }
    | none =>
      let tmp_node : Node := { depth := node.depth + 1, next := [] }
      { node with next := setKey node.next word (insert tmp_node words) }

/-- The method `append($keyword)`. -/
def Trie.append (t : Trie) (keyword : String) : Trie :=
  { t with root := insert t.root (preg_split keyword ++ [sentinel]) }

/-- The method `query($node, $words, &$matched)`. The array `$words` is passed by value:
the caller does not see what `array_shift` removes here, so only the result and the final
`$matched` are returned. On an empty array `array_shift` gives `NULL`, which as an array
key is the empty string and which `implode` renders as the empty string. -/
def query (node : Node) (words : List String) (matched : List String) : Bool × List String :=
  let word := words.head?.getD ""
  match h : getKey node.next word with
  | some child =>
    if (getKey child.next sentinel).isSome then (true, matched ++ [word])
    else query child words.tail (matched ++ [word])
  | none => (false, [])
termination_by sizeOf node
decreasing_by
  have := getKey_sizeOf _ _ _ h
  cases node
  simp only [Node.mk.sizeOf_spec] at this ⊢
  omega

/-- The `while (count($words) > 0)` loop of `match`; `acc` is `$this->matched`. Each
turn runs `query` from the root on a copy of the array, pushes the imploded units on
success and then does `array_shift($words)`. -/
def matchLoop (root : Node) : List String → List String → List String
  | [], acc => acc
  | word :: words, acc =>
    let r := query root (word :: words) []
    matchLoop root words (if r.1 then acc ++ [String.join r.2] else acc)

/-- The method `match($str)`: the trie after the call and the returned array. -/
def Trie.match (t : Trie) (str : String) : Trie × List String :=
  let m := matchLoop t.root (preg_split str) []
  ({ t with matched := m }, m)

/-- Appending the keywords of a list in order. -/
def Trie.appendAll (t : Trie) (keywords : List String) : Trie :=
  keywords.foldl Trie.append t

end PHP

/-! ## The methods of `src/TireMatching.js` on an explicit object store

The objects of the program live in a store and the methods receive references, so what
a method writes is visible: every statement of the source that reads or writes an
object is one read or write of the store. -/

namespace Heap

open TireMatching (sentinel)

/-- The objects of the program. A reference is the index of an object in the store. -/
inductive Obj where
  /-- A trie node `{ depth, next }`: its depth and the reference of its `next` object. -/
  | node (depth : Nat) (next : Nat)
  /-- An object used as a map (`next`): its own properties, one per unit, each holding
  the reference of a node. -/
  | map (props : Char → Option Nat)
  /-- An array of units (`words`, and the local `matched` of `match`). -/
  | units (elems : List Char)
  /-- An array of strings (`this.matched`). -/
  | strings (elems : List String)
  /-- A `Trie` instance: the references held by `this.root` and `this.matched`. -/
  | trie (root : Nat) (matched : Nat)

/-- The store: all objects allocated so far; a new object gets the next index. -/
abbrev Store := List Obj

/-- The fields of the node at `r`. -/
def nodeAt (s : Store) (r : Nat) : Option (Nat × Nat) :=
  match s[r]? with
  | some (.node depth next) => some (depth, next)
  | _ => none

/-- The own properties of the map at `r`. -/
def propsAt (s : Store) (r : Nat) : Option (Char → Option Nat) :=
  match s[r]? with
  | some (.map props) => some props
  | _ => none

/-- The elements of the array of units at `r`. -/
def unitsAt (s : Store) (r : Nat) : Option (List Char) :=
  match s[r]? with
  | some (.units elems) => some elems
  | _ => none

/-- The elements of the array of strings at `r`. -/
def stringsAt (s : Store) (r : Nat) : Option (List String) :=
  match s[r]? with
  | some (.strings elems) => some elems
  | _ => none

/-- The fields `root` and `matched` of the `Trie` instance at `r`. -/
def trieAt (s : Store) (r : Nat) : Option (Nat × Nat) :=
  match s[r]? with
  | some (.trie root matched) => some (root, matched)
  | _ => none

/-- The node `node.next[word]` when `node.next.hasOwnProperty(word)`; `word` is `none`
for `undefined`, which is no property of a `next` object. The outer `none` stands for a
`node` that is no node. -/
def childAt (s : Store) (node : Nat) (word : Option Char) : Option (Option Nat) :=
  match nodeAt s node with
  | none => none
  | some (_, next) =>
    match propsAt s next with
    | none => none
    | some props => some (word.bind props)

/-- The method `query(node, words, matched)` on the store, with room for `frames` nested
calls on the call stack. The arguments are references. The result is the returned
boolean and the store after the call; `none` when the call raises (no frame left, or an
object of another kind than the method expects). The source reads `node.next[word]`
again after the push on `matched`, and so does this definition. -/
def query : Nat → Store → Nat → Nat → Nat → Option (Bool × Store)
  | 0, _, _, _, _ => none
  | frames + 1, s, node, words, matched =>
    -- const word = words.shift();
    match unitsAt s words with
    | none => none
    | some ws =>
      let word := ws.head?
      let s1 := s.set words (.units ws.tail)
      -- if (node.next.hasOwnProperty(word))
      match childAt s1 node word with
      | none => none
      | some (some _) =>
        -- matched.push(word);
        match unitsAt s1 matched with
        | none => none
        | some ms =>
          let s2 := s1.set matched (.units (ms ++ word.toList))
          -- if (node.next[word].next.hasOwnProperty(sentinel)) return true;
          match childAt s2 node word with
          | some (some child) =>
            match childAt s2 child (some sentinel) with
            | none => none
            | some terminal =>
              if terminal.isSome then some (true, s2)
              -- return this.query(node.next[word], words, matched);
              -- (the same read of `node.next[word]`, no write in between)
              else query frames s2 child words matched
          | _ => none
      | some none =>
        -- matched.length = 0; return false;
        match unitsAt s1 matched with
        | none => none
        | some _ => some (false, s1.set matched (.units []))

/-- The statement `if (res) { this.matched.push(matched.join('')); }`. -/
def pushMatched (res : Bool) (s : Store) (this matched : Nat) : Option Store :=
  if res then
    match trieAt s this with
    | none => none
    | some (_, buffer) =>
      match stringsAt s buffer, unitsAt s matched with
      | some out, some ms => some (s.set buffer (.strings (out ++ [String.mk ms])))
      | _, _ => none
  else some s

theorem unitsAt_set_ne (s : Store) (r r2 : Nat) (o : Obj) (h : r2 ≠ r) :
    unitsAt (s.set r o) r2 = unitsAt s r2 := by
  simp only [unitsAt, List.getElem?_set_ne (Ne.symm h)]

theorem unitsAt_set_units (s : Store) (r : Nat) (old elems : List Char)
    (h : unitsAt s r = some old) : unitsAt (s.set r (.units elems)) r = some elems := by
  have hlt : r < s.length := by
    by_contra hge
    simp [unitsAt, List.getElem?_eq_none (Nat.le_of_not_lt hge)] at h
  simp [unitsAt, List.getElem?_set_self hlt]

theorem unitsAt_lt (s : Store) (r : Nat) (elems : List Char) (h : unitsAt s r = some elems) :
    r < s.length := by
  by_contra hge
  simp [unitsAt, List.getElem?_eq_none (Nat.le_of_not_lt hge)] at h

/-- A write to an array of units changes no lookup of an edge. -/
theorem childAt_set_units (s : Store) (r : Nat) (old elems : List Char)
    (h : unitsAt s r = some old) (node : Nat) (word : Option Char) :
    childAt (s.set r (.units elems)) node word = childAt s node word := by
  have hlt := unitsAt_lt _ _ _ h
  have hn : ∀ x, nodeAt (s.set r (.units elems)) x = nodeAt s x := by
    intro x
    by_cases e : x = r
    · subst e
      simp only [unitsAt] at h
      simp only [nodeAt, List.getElem?_set_self hlt]
      split at h <;> simp_all
    · simp only [nodeAt, List.getElem?_set_ne (Ne.symm e)]
  have hp : ∀ x, propsAt (s.set r (.units elems)) x = propsAt s x := by
    intro x
    by_cases e : x = r
    · subst e
      simp only [unitsAt] at h
      simp only [propsAt, List.getElem?_set_self hlt]
      split at h <;> simp_all
    · simp only [propsAt, List.getElem?_set_ne (Ne.symm e)]
  simp only [childAt, hn, hp]

/-- One call of `query`, with the second read of `node.next[word]` resolved: the push on
`matched` lies between the two reads and writes an array of units, so the second read
finds the node that the first one found. -/
theorem query_succ (frames : Nat) (s : Store) (node words matched : Nat) :
    query (frames + 1) s node words matched =
      match unitsAt s words with
      | none => none
      | some ws =>
        match childAt (s.set words (.units ws.tail)) node ws.head? with
        | none => none
        | some (some child) =>
          match unitsAt (s.set words (.units ws.tail)) matched with
          | none => none
          | some ms =>
            match childAt ((s.set words (.units ws.tail)).set matched
                (.units (ms ++ ws.head?.toList))) child (some sentinel) with
            | none => none
            | some terminal =>
              if terminal.isSome then
                some (true, (s.set words (.units ws.tail)).set matched
                  (.units (ms ++ ws.head?.toList)))
              else
                query frames ((s.set words (.units ws.tail)).set matched
                  (.units (ms ++ ws.head?.toList))) child words matched
        | some none =>
          match unitsAt (s.set words (.units ws.tail)) matched with
          | none => none
          | some _ => some (false, (s.set words (.units ws.tail)).set matched (.units []))
          := by
  rw [query]
  cases hws : unitsAt s words with
  | none => rfl
  | some ws =>
    dsimp only
    cases hc : childAt (s.set words (.units ws.tail)) node ws.head? with
    | none => rfl
    | some found =>
      cases found with
      | none => rfl
      | some child =>
        dsimp only
        cases hm : unitsAt (s.set words (.units ws.tail)) matched with
        | none => rfl
        | some ms =>
          dsimp only
          rw [childAt_set_units _ _ _ _ hm, hc]

/-- What `query` writes: the store keeps its length, and every object apart from the two
arrays `words` and `matched` is left as it was. -/
theorem heap_query_frame (frames : Nat) (s : Store) (node words matched : Nat) (res : Bool)
    (s2 : Store) (h : query frames s node words matched = some (res, s2)) :
    s2.length = s.length ∧ ∀ r, r ≠ words → r ≠ matched → s2[r]? = s[r]? := by
  induction frames generalizing s node with
  | zero => simp [query] at h
  | succ frames ih =>
    rw [query_succ] at h
    cases hws : unitsAt s words with
    | none => simp [hws] at h
    | some ws =>
      simp only [hws] at h
      cases hc : childAt (s.set words (.units ws.tail)) node ws.head? with
      | none => simp [hc] at h
      | some found =>
        cases found with
        | none =>
          simp only [hc] at h
          cases hm : unitsAt (s.set words (.units ws.tail)) matched with
          | none => simp [hm] at h
          | some ms =>
            simp only [hm, Option.some.injEq, Prod.mk.injEq] at h
            obtain ⟨-, rfl⟩ := h
            refine ⟨by simp, fun r h1 h2 => ?_⟩
            rw [List.getElem?_set_ne (Ne.symm h2), List.getElem?_set_ne (Ne.symm h1)]
        | some child =>
          simp only [hc] at h
          cases hm : unitsAt (s.set words (.units ws.tail)) matched with
          | none => simp [hm] at h
          | some ms =>
            simp only [hm] at h
            cases ht : childAt ((s.set words (.units ws.tail)).set matched
                (.units (ms ++ ws.head?.toList))) child (some sentinel) with
            | none => simp [ht] at h
            | some terminal =>
              simp only [ht] at h
              by_cases hterm : terminal.isSome
              · simp only [hterm, if_true, Option.some.injEq, Prod.mk.injEq] at h
                obtain ⟨-, rfl⟩ := h
                refine ⟨by simp, fun r h1 h2 => ?_⟩
                rw [List.getElem?_set_ne (Ne.symm h2), List.getElem?_set_ne (Ne.symm h1)]
              · simp only [hterm, Bool.false_eq_true, if_false] at h
                obtain ⟨hl, hr⟩ := ih _ _ h
                refine ⟨by simpa using hl, fun r h1 h2 => ?_⟩
                rw [hr r h1 h2, List.getElem?_set_ne (Ne.symm h2),
                  List.getElem?_set_ne (Ne.symm h1)]

/-- The array `words` is not longer after `query` than before. -/
theorem heap_query_units (frames : Nat) (s : Store) (node words matched : Nat) (res : Bool)
    (s2 : Store) (ws : List Char) (h : query frames s node words matched = some (res, s2))
    (hne : words ≠ matched) (hws : unitsAt s words = some ws) :
    ∃ ws2, unitsAt s2 words = some ws2 ∧ ws2.length ≤ ws.length := by
  induction frames generalizing s node ws with
  | zero => simp [query] at h
  | succ frames ih =>
    rw [query_succ] at h
    simp only [hws] at h
    have hw1 : unitsAt (s.set words (.units ws.tail)) words = some ws.tail :=
      unitsAt_set_units s words ws _ hws
    cases hc : childAt (s.set words (.units ws.tail)) node ws.head? with
    | none => simp [hc] at h
    | some found =>
      cases found with
      | none =>
        simp only [hc] at h
        cases hm : unitsAt (s.set words (.units ws.tail)) matched with
        | none => simp [hm] at h
        | some ms =>
          simp only [hm, Option.some.injEq, Prod.mk.injEq] at h
          obtain ⟨-, rfl⟩ := h
          exact ⟨ws.tail, by rw [unitsAt_set_ne _ _ _ _ hne, hw1], by simp⟩
      | some child =>
        simp only [hc] at h
        cases hm : unitsAt (s.set words (.units ws.tail)) matched with
        | none => simp [hm] at h
        | some ms =>
          simp only [hm] at h
          have hw2 : unitsAt ((s.set words (.units ws.tail)).set matched
              (.units (ms ++ ws.head?.toList))) words = some ws.tail := by
            rw [unitsAt_set_ne _ _ _ _ hne, hw1]
          cases ht : childAt ((s.set words (.units ws.tail)).set matched
              (.units (ms ++ ws.head?.toList))) child (some sentinel) with
          | none => simp [ht] at h
          | some terminal =>
            simp only [ht] at h
            by_cases hterm : terminal.isSome
            · simp only [hterm, if_true, Option.some.injEq, Prod.mk.injEq] at h
              obtain ⟨-, rfl⟩ := h
              exact ⟨ws.tail, hw2, by simp⟩
            · simp only [hterm, Bool.false_eq_true, if_false] at h
              obtain ⟨ws2, h1, h2⟩ := ih _ _ _ h hw2
              exact ⟨ws2, h1, by simp at h2; omega⟩

theorem stringsAt_lt (s : Store) (r : Nat) (elems : List String)
    (h : stringsAt s r = some elems) : r < s.length := by
  by_contra hge
  simp [stringsAt, List.getElem?_eq_none (Nat.le_of_not_lt hge)] at h

theorem trieAt_lt (s : Store) (r : Nat) (v : Nat × Nat) (h : trieAt s r = some v) :
    r < s.length := by
  by_contra hge
  simp [trieAt, List.getElem?_eq_none (Nat.le_of_not_lt hge)] at h

theorem unitsAt_append (s : Store) (r : Nat) (o : Obj) (h : r < s.length) :
    unitsAt (s ++ [o]) r = unitsAt s r := by
  simp only [unitsAt, List.getElem?_append_left h]

/-- What the push on `this.matched` writes: the array of strings that `this.matched`
refers to, and nothing else. -/
theorem pushMatched_frame (res : Bool) (s : Store) (this matched : Nat) (s2 : Store)
    (h : pushMatched res s this matched = some s2) :
    s2.length = s.length ∧
    (∀ r, unitsAt s2 r = unitsAt s r) ∧
    (∀ root buffer, trieAt s this = some (root, buffer) → ∀ r, r ≠ buffer → s2[r]? = s[r]?) := by
  unfold pushMatched at h
  by_cases hres : res
  · simp only [hres, if_true] at h
    cases ht : trieAt s this with
    | none => simp [ht] at h
    | some v =>
      obtain ⟨root, buffer⟩ := v
      simp only [ht] at h
      cases ho : stringsAt s buffer with
      | none => simp [ho] at h
      | some out =>
        cases hm : unitsAt s matched with
        | none => simp [ho, hm] at h
        | some ms =>
          simp only [ho, hm, Option.some.injEq] at h
          subst h
          refine ⟨by simp, fun r => ?_, ?_⟩
          · by_cases hr : r = buffer
            · subst hr
              have hlt := stringsAt_lt _ _ _ ho
              have : unitsAt s r = none := by
                simp only [stringsAt] at ho
                simp only [unitsAt]
                split at ho <;> simp_all
              rw [this]
              simp [unitsAt, List.getElem?_set_self hlt]
            · exact unitsAt_set_ne _ _ _ _ hr
          · intro root2 buffer2 heq r hr
            simp only [Option.some.injEq, Prod.mk.injEq] at heq
            obtain ⟨-, rfl⟩ := heq
            exact List.getElem?_set_ne (Ne.symm hr)
  · simp only [hres, Bool.false_eq_true, if_false, Option.some.injEq] at h
    subst h
    exact ⟨rfl, fun _ => rfl, fun _ _ _ _ _ => rfl⟩

/-- The `while (words.length > 0)` loop of `match` on the store; `this` and `words` are
the references of the `Trie` instance and of the array of units. The result is the store
after the loop, `none` when a call raises. -/
def matchLoop (frames : Nat) (s : Store) (this words : Nat) : Option Store :=
  match hws : unitsAt s words with
  | none => none
  | some ws =>
    if hpos : ws.length > 0 then
      -- const matched = [];
      let matched := s.length
      let s1 : Store := s ++ [Obj.units []]
      -- const res = this.query(this.root, words, matched);
      match trieAt s1 this with
      | none => none
      | some (root, _) =>
        match hq : query frames s1 root words matched with
        | none => none
        | some (res, s2) =>
          -- if (res) { this.matched.push(matched.join('')); }
          match hp : pushMatched res s2 this matched with
          | none => none
          | some s3 =>
            -- words.shift();
            match hsh : unitsAt s3 words with
            | none => none
            | some ws3 => matchLoop frames (s3.set words (.units ws3.tail)) this words
    else some s
termination_by ((unitsAt s words).map List.length).getD 0
decreasing_by
  have hlt := unitsAt_lt _ _ _ hws
  have hne : words ≠ s.length := Nat.ne_of_lt hlt
  have h1 : unitsAt (s ++ [Obj.units []]) words = some ws := by
    rw [unitsAt_append _ _ _ hlt, hws]
  obtain ⟨ws2, h2, h3⟩ := heap_query_units _ _ _ _ _ _ _ _ hq hne h1
  have h4 := (pushMatched_frame _ _ _ _ _ hp).2.1 words
  rw [hsh, h2] at h4
  have h5 : ws3 = ws2 := Option.some.inj h4
  subst h5
  rw [unitsAt_set_units _ _ _ _ hsh, hws]
  simp only [Option.map_some', Option.getD_some, List.length_tail]
  omega

/-- The method `match(str)` on the store, for the `Trie` instance at `this`: the
reference it returns (`this.matched`) and the store after the call; `none` when the call
raises. -/
def Trie.match (frames : Nat) (s : Store) (this : Nat) (str : String) :
    Option (Nat × Store) :=
  match trieAt s this with
  | none => none
  | some (root, _) =>
    -- this.matched = [];
    let buffer := s.length
    let s1 : Store := (s ++ [Obj.strings []]).set this (Obj.trie root buffer)
    -- const words = Array.from(str);
    let words := s1.length
    let s2 : Store := s1 ++ [Obj.units str.toList]
    match matchLoop frames s2 this words with
    | none => none
    | some s3 =>
      -- return this.matched;
      match trieAt s3 this with
      | none => none
      | some (_, result) => some (result, s3)

/-- The constructor: `this.root = { depth: 0, next: {} }; this.matched = [];`. The
result is the reference of the new `Trie` instance and the store with the four new
objects. -/
def Trie.new (s : Store) : Nat × Store :=
  let next := s.length
  let s1 : Store := s ++ [Obj.map (fun _ => none)]
  let root := s1.length
  let s2 : Store := s1 ++ [Obj.node 0 next]
  let matched := s2.length
  let s3 : Store := s2 ++ [Obj.strings []]
  (s3.length, s3 ++ [Obj.trie root matched])

/-- The method `insert(node, words)` on the store, with room for `frames` nested calls
on the call stack; `none` when the call raises. -/
def insert : Nat → Store → Nat → Nat → Option Store
  | 0, _, _, _ => none
  | frames + 1, s, node, words =>
    match unitsAt s words with
    | none => none
    | some [] =>
      -- if (words.length === 0) { return; }
      some s
    | some (word :: rest) =>
      -- const word = words.shift();
      let s1 : Store := s.set words (Obj.units rest)
      match nodeAt s1 node with
      | none => none
      | some (depth, next) =>
        match propsAt s1 next with
        | none => none
        | some props =>
          match props word with
          | some child =>
            -- this.insert(node.next[word], words);
            insert frames s1 child words
          | none =>
            -- const tmpNode = { depth: node.depth + 1, next: {} };
            let s2 : Store := s1 ++ [Obj.map (fun _ => none)]
            let tmpNode := s2.length
            let s3 : Store := s2 ++ [Obj.node (depth + 1) s1.length]
            -- node.next[word] = tmpNode;
            let s4 : Store := s3.set next (Obj.map (Function.update props word (some tmpNode)))
            -- this.insert(node.next[word], words);
            insert frames s4 tmpNode words

/-- The method `append(keyword)` on the store, for the `Trie` instance at `this`. -/
def Trie.append (frames : Nat) (s : Store) (this : Nat) (keyword : String) : Option Store :=
  match trieAt s this with
  | none => none
  | some (root, _) =>
    -- const words = Array.from(keyword); words.push(sentinel);
    let words := s.length
    let s1 : Store := s ++ [Obj.units (keyword.toList ++ [sentinel])]
    -- this.insert(this.root, words);
    insert frames s1 root words

/-- The statement `keywords.forEach(keyword => trie.append(...))` of the script: the
appends of a list of keywords, in order, on the store. -/
def Trie.appendAll (frames : Nat) (s : Store) (this : Nat) : List String → Option Store
  | [] => some s
  | keyword :: keywords =>
    match Trie.append frames s this keyword with
    | none => none
    | some s2 => Trie.appendAll frames s2 this keywords

end Heap

/-! # Notions used in the statements -/

namespace TireMatching

/-! ## The reference scan of the specification (section 4.2) -/

namespace Spec

/-- A node is terminal when it has a sentinel child. -/
def isTerminal (node : Node) : Bool := (node.next sentinel).isSome

/-- One descent attempt, in the words of the specification: the front unit is removed;
without a child edge for it the attempt fails (the unit stays consumed); with one, the
attempt succeeds as soon as the node reached is terminal and goes on otherwise; on an
empty rest it fails. The result is the success flag and the number of units consumed. -/
def descent (node : Node) : List Char → Bool × Nat
  | [] => (false, 0)
  | u :: rest =>
    match node.next u with
    | none => (false, 1)
    | some child =>
      if isTerminal child then (true, 1)
      else ((descent child rest).1, (descent child rest).2 + 1)

/-- The reference scan on the remaining units `R`: nothing on an empty `R`; otherwise one
descent from the root, the consumed units reported on success, one further unit dropped,
and the scan continues. -/
def scan (root : Node) (R : List Char) : List String :=
  match R with
  | [] => []
  | u :: rest =>
    let d := descent root (u :: rest)
    (if d.1 then [String.mk ((u :: rest).take d.2)] else []) ++
      scan root (((u :: rest).drop d.2).drop 1)
termination_by R.length
decreasing_by
  simp only [List.length_drop, List.length_cons]
  omega

/-- The reference scan with an index cursor: the attempt at `start` is followed by the
attempt at `start + consumed + 1`. -/
def scanAt (root : Node) (text : List Char) (start : Nat) : List String :=
  if h : start < text.length then
    let d := descent root (text.drop start)
    (if d.1 then [String.mk ((text.drop start).take d.2)] else []) ++
      scanAt root text (start + d.2 + 1)
  else []
termination_by text.length - start
decreasing_by
  omega

end Spec

/-! ## Paths, entries, attempts, offsets -/

/-- The node reached from `node` along `path`, when every edge of the path exists. -/
def walk (node : Node) : List Char → Option Node
  | [] => some node
  | c :: path =>
    match node.next c with
    | some child => walk child path
    | none => none

/-- The keyword as `append` hands it to `insert`: its code points, then the sentinel. -/
def entry (keyword : String) : List Char := keyword.toList ++ [sentinel]

/-- The root of the trie obtained from a fresh one by appending `ks` in order. -/
def rootOf (ks : List String) : Node := (Trie.new.appendAll ks).root

/-- The report of one turn of the loop of `match` when the shared array holds `S`: the
joined units when `query` from the root succeeds, nothing otherwise. -/
def attempt (root : Node) (S : List Char) : Option String :=
  if (query root S []).1 then some (String.mk (query root S []).2.2) else none

/-- The strings `ms` lie in `text` at the offsets `ss`, the first offset at least `lo`
and each further offset at least the previous one plus the length of its string plus
one. -/
def PlacedFrom (text : List Char) : Nat → List String → List Nat → Prop
  | _, [], [] => True
  | lo, m :: ms, s :: ss =>
    lo ≤ s ∧ (text.drop s).take m.length = m.toList ∧ PlacedFrom text (s + m.length + 1) ms ss
  | _, _, _ => False

/-- The nodes `a` and `b` have the same depth and the same children, the sentinel child
apart. -/
def AgreeOffSentinel (a b : Node) : Prop :=
  a.depth = b.depth ∧ ∀ c, c ≠ sentinel → a.next c = b.next c

/-- The loop of `match` run for at most `fuel` turns: `none` when the turns are used up
before the array is empty. -/
def matchFuel (root : Node) : Nat → List Char → List String → Option (List String)
  | 0, words, acc => if words.length > 0 then none else some acc
  | fuel + 1, words, acc =>
    if words.length > 0 then
      matchFuel root fuel ((query root words []).2.1.drop 1)
        (if (query root words []).1 then acc ++ [String.mk (query root words []).2.2] else acc)
    else some acc

/-- The number of nested calls of `query` that one call on `words` makes, itself
included. -/
def queryCalls (node : Node) : List Char → Nat
  | [] => 1
  | word :: words =>
    match node.next word with
    | some child =>
      if (child.next sentinel).isSome then 1 else queryCalls child words + 1
    | none => 1

/-- The image of a string under a relabelling of the code points. -/
def relabel (f : Char → Char) (s : String) : String := String.mk (s.toList.map f)

/-- The node `b` has, along the images under `f`, the paths that the node `a` has. -/
def SameShape (f : Char → Char) (a b : Node) : Prop :=
  ∀ q : List Char, (walk b (q.map f)).isSome = (walk a q).isSome

/-- The relabelling that exchanges the Latin letters c, a, t with the Cyrillic letters
к, а, т and leaves every other code point as it is. -/
def toCyrillic (c : Char) : Char :=
  Equiv.swap 't' 'т' (Equiv.swap 'a' 'а' (Equiv.swap 'c' 'к' c))

end TireMatching

/-! ## Tries in the object store -/

namespace Heap

open TireMatching (sentinel)

/-- The node at `r` of the store, with all nodes below it, is the trie `n`: the depth
fields agree, the edges carry the same units, and the node behind an edge is the subtrie
behind that edge. -/
inductive Repr (s : Store) : Nat → TireMatching.Node → Prop
  | mk (r depth next : Nat) (props : Char → Option Nat) (n : TireMatching.Node) :
      s[r]? = some (Obj.node depth next) → s[next]? = some (Obj.map props) →
      n.depth = depth →
      (∀ c, (props c).isSome = (n.next c).isSome) →
      (∀ c r2 n2, props c = some r2 → n.next c = some n2 → Repr s r2 n2) →
      Repr s r n

/-- The nodes and `next` objects of `s` are in `s2` what they are in `s`. -/
def KeepsNodes (s s2 : Store) : Prop :=
  (∀ (r depth next : Nat),
    s[r]? = some (Obj.node depth next) → s2[r]? = some (Obj.node depth next)) ∧
  (∀ (r : Nat) (props : Char → Option Nat),
    s[r]? = some (Obj.map props) → s2[r]? = some (Obj.map props))

/-- The node at `r` holds the trie `n` as a tree of its own: `P` is the set of the
references of its nodes and `next` objects, the subtrees behind different edges share no
object, and none of them contains the node or its `next` object. -/
inductive Owns (s : Store) : Nat → TireMatching.Node → (Nat → Prop) → Prop
  | mk (r depth next : Nat) (props : Char → Option Nat) (n : TireMatching.Node)
      (F : Char → Nat → Prop) (P : Nat → Prop) :
      s[r]? = some (Obj.node depth next) → s[next]? = some (Obj.map props) →
      n.depth = depth →
      (∀ c, (props c).isSome = (n.next c).isSome) →
      (∀ c r2 n2, props c = some r2 → n.next c = some n2 → Owns s r2 n2 (F c)) →
      (∀ c, props c = none → ∀ x, ¬ F c x) →
      (∀ c x, F c x → x ≠ r ∧ x ≠ next) →
      (∀ c c2 x, c ≠ c2 → F c x → ¬ F c2 x) →
      (∀ x, P x ↔ (x = r ∨ x = next ∨ ∃ c, F c x)) →
      Owns s r n P

/-- An object of the footprint is a node or a `next` object. -/
def IsNodeOrMap (s : Store) (x : Nat) : Prop :=
  (∃ depth next, s[x]? = some (Obj.node depth next)) ∨ (∃ props, s[x]? = some (Obj.map props))

/-- The store left by `new Trie()` and `append("a")`, started on the empty store: the
`Trie` instance is at reference 3, its root at 1. -/
def exampleStore : Store :=
  [Obj.map (Function.update (fun _ => none) 'a' (some 6)),
   Obj.node 0 0,
   Obj.strings [],
   Obj.trie 1 2,
   Obj.units [],
   Obj.map (Function.update (fun _ => none) sentinel (some 8)),
   Obj.node 1 5,
   Obj.map (fun _ => none),
   Obj.node 2 7]

end Heap

namespace TireMatching

/-! # Theorems on `src/TireMatching.js` -/

/-! ## Refinement: `query` and the loop against the reference scan -/

theorem query_eq_descent (node : Node) (words matched : List Char) :
    query node words matched =
      ((Spec.descent node words).1, words.drop (Spec.descent node words).2,
        if (Spec.descent node words).1 then matched ++ words.take (Spec.descent node words).2
        else []) := by
  induction words generalizing node matched with
  | nil => simp [query, Spec.descent]
  | cons w ws ih =>
    simp only [query, Spec.descent]
    cases hn : node.next w with
    | none => simp
    | some child =>
      by_cases ht : (child.next sentinel).isSome
      · simp [ht, Spec.isTerminal]
      · simp only [ht, Spec.isTerminal, Bool.false_eq_true, if_false]
        rw [ih child (matched ++ [w])]
        by_cases hd : (Spec.descent child ws).1 <;> simp [hd]

theorem matchLoop_eq_scan (root : Node) (words : List Char) (acc : List String) :
    matchLoop root words acc = acc ++ Spec.scan root words := by
  generalize hn : words.length = n
  induction n using Nat.strong_induction_on generalizing words acc with
  | _ n ih =>
    subst hn
    cases words with
    | nil =>
      rw [matchLoop, Spec.scan]
      simp
    | cons w ws =>
      rw [matchLoop, Spec.scan]
      have hlt := query_length_lt root (w :: ws) [] (by simp)
      simp only [List.length_cons, gt_iff_lt, Nat.zero_lt_succ, dite_true]
      rw [ih _ (by simp only [List.length_drop]; omega) _ _ rfl]
      rw [query_eq_descent]
      by_cases hd : (Spec.descent root (w :: ws)).1 <;> simp [hd]

theorem scanAt_eq_scan (root : Node) (text : List Char) (start : Nat) :
    Spec.scanAt root text start = Spec.scan root (text.drop start) := by
  generalize hn : text.length - start = n
  induction n using Nat.strong_induction_on generalizing start with
  | _ n ih =>
    subst hn
    rw [Spec.scanAt]
    by_cases h : start < text.length
    · simp only [h, dite_true]
      rw [ih _ (by omega) _ rfl]
      obtain ⟨u, rest, hur⟩ : ∃ u rest, text.drop start = u :: rest := by
        cases hd : text.drop start with
        | nil => simp at hd; omega
        | cons u rest => exact ⟨u, rest, rfl⟩
      conv_rhs => rw [hur, Spec.scan]
      rw [← hur]
      simp [List.drop_drop, Nat.add_comm, Nat.add_left_comm, Nat.add_assoc]
    · simp only [h, dite_false]
      rw [List.drop_of_length_le (by omega), Spec.scan]

/-- Claim C1: for every keyword list appended to a fresh trie and every text, `match`
returns exactly the list of the reference scan of the specification, in its form on the
remaining units and in its form with an index cursor advancing by consumed + 1. -/
theorem match_eq_reference_scan (ks : List String) (text : String) :
    ((Trie.new.appendAll ks).match text).2 = Spec.scan (Trie.new.appendAll ks).root text.toList
    ∧ ((Trie.new.appendAll ks).match text).2
        = Spec.scanAt (Trie.new.appendAll ks).root text.toList 0 := by
  constructor
  · simp [Trie.match, matchLoop_eq_scan]
  · simp [Trie.match, matchLoop_eq_scan, scanAt_eq_scan]

/-! ## Paths of the trie -/

theorem insert_depth (node : Node) (words : List Char) :
    (insert node words).depth = node.depth := by
  cases words with
  | nil => rfl
  | cons w ws =>
    simp only [insert]
    cases node.next w <;> rfl

theorem insert_next (node : Node) (w : Char) (ws : List Char) (c : Char) :
    (insert node (w :: ws)).next c =
      if c = w then some (insert ((node.next w).getD (Node.fresh (node.depth + 1))) ws)
      else node.next c := by
  simp only [insert]
  cases hn : node.next w <;> simp [Function.update_apply]

theorem walk_fresh (d : Nat) (p : List Char) :
    (walk (Node.fresh d) p).isSome ↔ p = [] := by
  cases p <;> simp [walk, Node.fresh]

theorem walk_insert (node : Node) (words p : List Char) :
    (walk (insert node words) p).isSome ↔ (walk node p).isSome ∨ p <+: words := by
  induction words generalizing node p with
  | nil => cases p <;> simp [insert, walk]
  | cons w ws ih =>
    cases p with
    | nil => simp [walk]
    | cons c p =>
      simp only [walk, insert_next]
      by_cases hc : c = w
      · subst hc
        simp only [if_true, ih, List.cons_prefix_cons, true_and]
        cases hn : node.next c with
        | none => simp [walk_fresh]; intro h; simp [h]
        | some child => simp
      · simp [hc, List.cons_prefix_cons]

theorem appendAll_root (t : Trie) (ks : List String) :
    (t.appendAll ks).root = (ks.map entry).foldl insert t.root := by
  induction ks generalizing t with
  | nil => rfl
  | cons k ks ih =>
    simp only [Trie.appendAll, List.foldl_cons, List.map_cons] at ih ⊢
    rw [ih]
    rfl

theorem walk_foldl_insert (node : Node) (ws : List (List Char)) (p : List Char) :
    (walk (ws.foldl insert node) p).isSome ↔ (walk node p).isSome ∨ ∃ w ∈ ws, p <+: w := by
  induction ws generalizing node with
  | nil => simp
  | cons w ws ih =>
    simp only [List.foldl_cons, ih, walk_insert, List.mem_cons, exists_eq_or_imp, or_assoc]

/-- The paths of the trie built from `ks` are the prefixes of the entries of `ks`. -/
theorem walk_rootOf (ks : List String) (p : List Char) :
    (walk (rootOf ks) p).isSome ↔ p = [] ∨ ∃ k ∈ ks, p <+: entry k := by
  unfold rootOf
  rw [appendAll_root, walk_foldl_insert]
  simp [Trie.new, walk_fresh]

theorem walk_append (node : Node) (p q : List Char) :
    walk node (p ++ q) = (walk node p).bind (fun n => walk n q) := by
  induction p generalizing node with
  | nil => simp [walk]
  | cons c p ih =>
    simp only [List.cons_append, walk]
    cases node.next c <;> simp [ih]

theorem walk_sentinel (node : Node) :
    (walk node [sentinel]).isSome = (node.next sentinel).isSome := by
  simp only [walk]
  cases node.next sentinel <;> rfl

/-- What a successful descent establishes: it consumed `n` units, `1 ≤ n`, all of them
present, the path of these units ends in a terminal node, and no shorter non-empty
prefix does. -/
theorem descent_success (node : Node) (R : List Char) (h : (Spec.descent node R).1 = true) :
    1 ≤ (Spec.descent node R).2 ∧ (Spec.descent node R).2 ≤ R.length ∧
    (walk node (R.take (Spec.descent node R).2 ++ [sentinel])).isSome ∧
    ∀ j, 1 ≤ j → j < (Spec.descent node R).2 →
      (walk node (R.take j ++ [sentinel])).isSome = false := by
  induction R generalizing node with
  | nil => simp [Spec.descent] at h
  | cons u rest ih =>
    simp only [Spec.descent] at h ⊢
    cases hn : node.next u with
    | none => simp [hn] at h
    | some child =>
      simp only [hn] at h ⊢
      by_cases ht : Spec.isTerminal child
      · simp only [ht, if_true]
        refine ⟨le_refl _, by simp, ?_, fun j h1 h2 => by omega⟩
        have hw : (walk child [sentinel]).isSome = true := by
          rw [walk_sentinel]; exact ht
        simpa only [List.take_succ_cons, List.take_zero, List.cons_append, List.nil_append,
          walk, hn] using hw
      · simp only [ht, Bool.false_eq_true, if_false] at h ⊢
        obtain ⟨h1, h2, h3, h4⟩ := ih child h
        refine ⟨by omega, by simp; omega, ?_, ?_⟩
        · simpa [walk, hn] using h3
        · intro j hj1 hj2
          obtain ⟨i, rfl⟩ : ∃ i, j = i + 1 := ⟨j - 1, by omega⟩
          simp only [List.take_succ_cons, List.cons_append, walk, hn]
          by_cases hi : i = 0
          · subst hi
            have hw : (walk child [sentinel]).isSome = false := by
              rw [walk_sentinel]; simpa [Spec.isTerminal] using ht
            simpa only [List.take_zero, List.nil_append] using hw
          · exact h4 i (by omega) (by omega)

/-- Every string of the scan is the report of a successful descent on a suffix of the
units scanned. -/
theorem mem_scan (root : Node) (R : List Char) (m : String) (h : m ∈ Spec.scan root R) :
    ∃ S, S <:+ R ∧ (Spec.descent root S).1 = true ∧
      m = String.mk (S.take (Spec.descent root S).2) := by
  generalize hn : R.length = n at h
  induction n using Nat.strong_induction_on generalizing R with
  | _ n ih =>
    subst hn
    cases R with
    | nil => rw [Spec.scan] at h; simp at h
    | cons u rest =>
      rw [Spec.scan] at h
      simp only [List.mem_append] at h
      rcases h with h | h
      · by_cases hd : (Spec.descent root (u :: rest)).1
        · simp only [hd, if_true, List.mem_singleton] at h
          exact ⟨u :: rest, List.suffix_refl _, hd, h⟩
        · simp [hd] at h
      · obtain ⟨S, hS, h1, h2⟩ := ih _ (by simp only [List.length_drop, List.length_cons]; omega)
          _ h rfl
        exact ⟨S, (hS.trans (List.drop_suffix _ _)).trans (List.drop_suffix _ _), h1, h2⟩

/-- Every string returned by `match` is the report of a successful descent from the root
on a suffix of the text. -/
theorem mem_match (t : Trie) (text : String) (m : String) (h : m ∈ (t.match text).2) :
    ∃ S, S <:+ text.toList ∧ (Spec.descent t.root S).1 = true ∧
      m = String.mk (S.take (Spec.descent t.root S).2) := by
  simp only [Trie.match, matchLoop_eq_scan, List.nil_append] at h
  exact mem_scan _ _ _ h

theorem entry_walk (ks : List String) (k : String) (hk : k ∈ ks) :
    (walk (rootOf ks) (k.toList ++ [sentinel])).isSome = true := by
  rw [walk_rootOf]
  exact Or.inr ⟨k, hk, List.prefix_refl _⟩

theorem eq_of_concat_prefix_concat (p k : List Char) (c : Char) (hc : c ∉ k)
    (h : p ++ [c] <+: k ++ [c]) : p = k := by
  obtain ⟨t, ht⟩ := h
  rcases List.eq_nil_or_concat t with rfl | ⟨t1, b, rfl⟩
  · rw [List.append_nil] at ht
    exact List.append_inj_left' ht rfl
  · exfalso
    rw [List.concat_eq_append, ← List.append_assoc] at ht
    have h1 := List.append_inj_left' ht rfl
    apply hc
    rw [← h1]
    simp

/-! ## Claims on the strings reported by `match` -/

/-- Claim C2, evaluated on the code: with the keywords "cat" and "dog" appended,
`match("cat and dog")` of `src/TireMatching.js` returns the one-element list holding
"cat": the attempt that fails on the units "d", " " and the `shift` behind it consume
the start of "dog". The PHP implementation, whose `query` works on a copy of the array,
returns "cat" and "dog" on the same input. -/
theorem match_cat_and_dog :
    ((Trie.new.appendAll ["cat", "dog"]).match "cat and dog").2 = ["cat"] ∧
    ((PHP.Trie.new.appendAll ["cat", "dog"]).match "cat and dog").2 = ["cat", "dog"] := by
  constructor
  · simp [Trie.match, matchLoop, query, insert, Trie.appendAll, Trie.append, Trie.new,
      Node.fresh, Function.update_apply, sentinel]
  · simp [PHP.Trie.match, PHP.matchLoop, PHP.query, PHP.insert, PHP.Trie.appendAll,
      PHP.Trie.append, PHP.Trie.new, PHP.preg_split, PHP.getKey, PHP.setKey, PHP.sentinel,
      PHP.unit, String.join, sentinel]

/-- Claim C3, evaluated on the code: the keyword "b" is appended, is not empty and occurs
in the text "ab", and `match` of `src/TireMatching.js` returns the empty list: the failed
attempt on "a" and the `shift` behind it skip the offset at which "b" starts. The PHP
implementation returns "b" on the same input. -/
theorem match_misses_keyword :
    "b" ∈ ["b"] ∧ "b" ≠ "" ∧ "b".toList <:+: "ab".toList ∧
    ((Trie.new.appendAll ["b"]).match "ab").2 = [] ∧
    ((PHP.Trie.new.appendAll ["b"]).match "ab").2 = ["b"] := by
  refine ⟨by simp, by decide, ⟨['a'], [], rfl⟩, ?_, ?_⟩
  · simp [Trie.match, matchLoop, query, insert, Trie.appendAll, Trie.append, Trie.new,
      Node.fresh, Function.update_apply, sentinel]
  · simp [PHP.Trie.match, PHP.matchLoop, PHP.query, PHP.insert, PHP.Trie.appendAll,
      PHP.Trie.append, PHP.Trie.new, PHP.preg_split, PHP.getKey, PHP.setKey, PHP.sentinel,
      PHP.unit, String.join, sentinel]

/-- Claim C4: when no keyword contains the sentinel, every string returned by `match` is
one of the appended keywords, is not empty, and occurs in the text as a contiguous run of
code points; so when no non-empty keyword occurs in the text the result is empty. -/
theorem match_sound (ks : List String) (text : String)
    (hs : ∀ k ∈ ks, sentinel ∉ k.toList) :
    (∀ m ∈ ((Trie.new.appendAll ks).match text).2,
      m ∈ ks ∧ m ≠ "" ∧ m.toList <:+: text.toList) ∧
    ((∀ k ∈ ks, k ≠ "" → ¬ k.toList <:+: text.toList) →
      ((Trie.new.appendAll ks).match text).2 = []) := by
  have key : ∀ m ∈ ((Trie.new.appendAll ks).match text).2,
      m ∈ ks ∧ m ≠ "" ∧ m.toList <:+: text.toList := by
    intro m hm
    obtain ⟨S, hS, hd, rfl⟩ := mem_match _ _ _ hm
    obtain ⟨h1, h2, h3, -⟩ := descent_success _ _ hd
    have h3 : (walk (rootOf ks) (S.take (Spec.descent (rootOf ks) S).2 ++ [sentinel])).isSome :=
      h3
    rw [walk_rootOf] at h3
    rcases h3 with h3 | ⟨k, hk, hpre⟩
    · simp at h3
    · have hk2 := eq_of_concat_prefix_concat _ _ _ (hs k hk) hpre
      have hk3 : k = String.mk (S.take (Spec.descent (rootOf ks) S).2) := by
        rw [hk2]
        cases k
        rfl
      refine ⟨hk3 ▸ hk, ?_, ?_⟩
      · intro h
        have hl : (S.take (Spec.descent (rootOf ks) S).2).length = 0 :=
          congrArg String.length h
        rw [List.length_take] at hl
        have h1 : 1 ≤ (Spec.descent (rootOf ks) S).2 := h1
        have h2 : (Spec.descent (rootOf ks) S).2 ≤ S.length := h2
        omega
      · exact ((List.take_prefix _ S).isInfix).trans hS.isInfix
  refine ⟨key, fun hno => ?_⟩
  apply List.eq_nil_iff_forall_not_mem.mpr
  intro m hm
  obtain ⟨h1, h2, h3⟩ := key m hm
  exact hno m h1 h2 h3

/-- Witness of claim C4: the keyword "zzz" and the text "hello world" give the empty
list. -/
theorem match_sound_witness :
    ((Trie.new.appendAll ["zzz"]).match "hello world").2 = [] :=
  (match_sound ["zzz"] "hello world" (by decide)).2 (by decide)

/-- Claim C7: no string returned by `match` has a non-empty proper prefix that is an
appended keyword: an appended non-empty keyword that is a prefix of a returned string is
that string. Hence a keyword with an appended non-empty strict prefix is never
returned. -/
theorem match_shortest_prefix_wins (ks : List String) (text : String) :
    (∀ m ∈ ((Trie.new.appendAll ks).match text).2, ∀ p ∈ ks, p ≠ "" →
      p.toList <+: m.toList → p = m) ∧
    (∀ p ∈ ks, ∀ q ∈ ks, p ≠ "" → p ≠ q → p.toList <+: q.toList →
      q ∉ ((Trie.new.appendAll ks).match text).2) := by
  have key : ∀ m ∈ ((Trie.new.appendAll ks).match text).2, ∀ p ∈ ks, p ≠ "" →
      p.toList <+: m.toList → p = m := by
    intro m hm p hp hne hpre
    obtain ⟨S, hS, hd, rfl⟩ := mem_match _ _ _ hm
    obtain ⟨h1, h2, -, h4⟩ := descent_success _ _ hd
    have hlen : 1 ≤ p.toList.length := by
      cases p with
      | mk d =>
        cases d with
        | nil => exact absurd rfl hne
        | cons c d => simp
    have htake : p.toList = S.take p.toList.length := by
      have h5 := List.prefix_iff_eq_take.mp hpre
      change p.toList = List.take p.toList.length (List.take _ S) at h5
      rw [List.take_take] at h5
      have hle := hpre.length_le
      change p.toList.length ≤ (List.take _ S).length at hle
      rw [List.length_take] at hle
      rw [Nat.min_eq_left (by omega)] at h5
      exact h5
    have hle := hpre.length_le
    change p.toList.length ≤ (List.take _ S).length at hle
    rw [List.length_take] at hle
    by_cases hlt : p.toList.length < (Spec.descent (Trie.new.appendAll ks).root S).2
    · exfalso
      have h6 := h4 _ hlen hlt
      rw [← htake] at h6
      have h7 := entry_walk ks p hp
      unfold rootOf at h7
      rw [h6] at h7
      exact absurd h7 (by simp)
    · have heq : p.toList.length = (Spec.descent (Trie.new.appendAll ks).root S).2 := by omega
      rw [heq] at htake
      cases p
      simp only [String.toList] at htake
      rw [htake]
  refine ⟨key, fun p hp q hq hne hpq hpre hmem => hpq (key q hmem p hp hne hpre)⟩

/-- Witness of claim C7: with "ab" and "abc" appended, the text "abcabc" gives "ab"
twice, and "abc" is not returned. -/
theorem match_shortest_prefix_wins_witness :
    ((Trie.new.appendAll ["ab", "abc"]).match "abcabc").2 = ["ab", "ab"] ∧
    "abc" ∉ ((Trie.new.appendAll ["ab", "abc"]).match "abcabc").2 :=
  ⟨by simp [Trie.match, matchLoop, query, insert, Trie.appendAll, Trie.append, Trie.new,
      Node.fresh, Function.update_apply, sentinel],
   (match_shortest_prefix_wins ["ab", "abc"] "abcabc").2 "ab" (by simp) "abc" (by simp)
     (by decide) (by decide) ⟨['c'], rfl⟩⟩

/-! ## Offsets of the reported strings -/

theorem PlacedFrom.mono (text : List Char) (lo lo2 : Nat) (ms : List String) (ss : List Nat)
    (hle : lo2 ≤ lo) (h : PlacedFrom text lo ms ss) : PlacedFrom text lo2 ms ss := by
  cases ms with
  | nil =>
    cases ss with
    | nil => simp [PlacedFrom]
    | cons s ss => simp [PlacedFrom] at h
  | cons m ms =>
    cases ss with
    | nil => simp [PlacedFrom] at h
    | cons s ss =>
      simp only [PlacedFrom] at h ⊢
      exact ⟨by omega, h.2⟩

theorem scanAt_placed (root : Node) (text : List Char) (start : Nat) :
    ∃ ss, PlacedFrom text start (Spec.scanAt root text start) ss := by
  generalize hn : text.length - start = n
  induction n using Nat.strong_induction_on generalizing start with
  | _ n ih =>
    subst hn
    rw [Spec.scanAt]
    by_cases h : start < text.length
    · simp only [h, dite_true]
      obtain ⟨ss, hss⟩ := ih _ (by omega)
        (start + (Spec.descent root (text.drop start)).2 + 1) rfl
      by_cases hd : (Spec.descent root (text.drop start)).1
      · obtain ⟨h1, h2, -, -⟩ := descent_success _ _ hd
        refine ⟨start :: ss, ?_⟩
        simp only [hd, if_true, List.singleton_append, PlacedFrom]
        have hlen : (String.mk ((text.drop start).take
            (Spec.descent root (text.drop start)).2)).length
            = (Spec.descent root (text.drop start)).2 := by
          simp only [String.length, List.length_take]
          omega
        rw [hlen]
        exact ⟨le_refl _, rfl, hss⟩
      · refine ⟨ss, ?_⟩
        simp only [hd, Bool.false_eq_true, if_false, List.nil_append]
        exact PlacedFrom.mono _ _ _ _ _ (by omega) hss
    · exact ⟨[], by simp [h, PlacedFrom]⟩

theorem PlacedFrom.index (text : List Char) (lo : Nat) (ms : List String) (ss : List Nat)
    (h : PlacedFrom text lo ms ss) :
    ss.length = ms.length ∧
    (∀ i, i < ms.length → lo ≤ ss.getD i 0 ∧
      (text.drop (ss.getD i 0)).take (ms.getD i "").length = (ms.getD i "").toList) ∧
    (∀ i, i + 1 < ms.length →
      ss.getD i 0 + (ms.getD i "").length + 1 ≤ ss.getD (i + 1) 0) := by
  induction ms generalizing lo ss with
  | nil => cases ss <;> simp [PlacedFrom] at h ⊢
  | cons m ms ih =>
    cases ss with
    | nil => simp [PlacedFrom] at h
    | cons s ss =>
      simp only [PlacedFrom] at h
      obtain ⟨h1, h2, h3⟩ := h
      obtain ⟨i1, i2, i3⟩ := ih _ _ h3
      refine ⟨by simp [i1], ?_, ?_⟩
      · intro i hi
        cases i with
        | zero => exact ⟨h1, h2⟩
        | succ i =>
          simp only [List.getD_cons_succ]
          have := i2 i (by simpa using hi)
          exact ⟨by omega, this.2⟩
      · intro i hi
        cases i with
        | zero =>
          simp only [List.getD_cons_succ, List.getD_cons_zero]
          exact (i2 0 (by simpa using hi)).1
        | succ i =>
          simp only [List.getD_cons_succ]
          exact i3 i (by simpa using hi)

/-- Claim C8: the strings returned by `match` can be placed at offsets of the text, one
offset per string in order, such that the text holds each string at its offset and each
next offset is at least the previous offset plus the length of the previous string plus
one; so the offsets increase and the reported strings neither overlap nor touch. -/
theorem match_offsets (ks : List String) (text : String) :
    ∃ ss : List Nat,
      ss.length = ((Trie.new.appendAll ks).match text).2.length ∧
      (∀ i, i < ((Trie.new.appendAll ks).match text).2.length →
        (text.toList.drop (ss.getD i 0)).take
            ((((Trie.new.appendAll ks).match text).2.getD i "").length)
          = (((Trie.new.appendAll ks).match text).2.getD i "").toList) ∧
      (∀ i, i + 1 < ((Trie.new.appendAll ks).match text).2.length →
        ss.getD i 0 < ss.getD (i + 1) 0 ∧
        ss.getD i 0 + (((Trie.new.appendAll ks).match text).2.getD i "").length + 1
          ≤ ss.getD (i + 1) 0) := by
  have hm : ((Trie.new.appendAll ks).match text).2
      = Spec.scanAt (Trie.new.appendAll ks).root text.toList 0 := by
    simp [Trie.match, matchLoop_eq_scan, scanAt_eq_scan]
  rw [hm]
  obtain ⟨ss, hss⟩ := scanAt_placed (Trie.new.appendAll ks).root text.toList 0
  obtain ⟨h1, h2, h3⟩ := PlacedFrom.index _ _ _ _ hss
  exact ⟨ss, h1, fun i hi => (h2 i hi).2, fun i hi => ⟨by have := h3 i hi; omega, h3 i hi⟩⟩

/-- Witness of claim C8: the keyword "aa" and the text "aaaa" give the one string "aa";
the second occurrence, which touches the first, is not reported. -/
theorem match_offsets_witness :
    ((Trie.new.appendAll ["aa"]).match "aaaa").2 = ["aa"] ∧
    ∃ ss : List Nat,
      ss.length = ((Trie.new.appendAll ["aa"]).match "aaaa").2.length ∧
      (∀ i, i < ((Trie.new.appendAll ["aa"]).match "aaaa").2.length →
        ("aaaa".toList.drop (ss.getD i 0)).take
            ((((Trie.new.appendAll ["aa"]).match "aaaa").2.getD i "").length)
          = (((Trie.new.appendAll ["aa"]).match "aaaa").2.getD i "").toList) ∧
      (∀ i, i + 1 < ((Trie.new.appendAll ["aa"]).match "aaaa").2.length →
        ss.getD i 0 < ss.getD (i + 1) 0 ∧
        ss.getD i 0 + (((Trie.new.appendAll ["aa"]).match "aaaa").2.getD i "").length + 1
          ≤ ss.getD (i + 1) 0) :=
  ⟨by simp [Trie.match, matchLoop, query, insert, Trie.appendAll, Trie.append, Trie.new,
      Node.fresh, Function.update_apply, sentinel],
   match_offsets ["aa"] "aaaa"⟩

/-! ## Appending the empty keyword, appending a keyword twice -/

theorem insert_cons (node : Node) (w : Char) (ws : List Char) :
    insert node (w :: ws) =
      { depth := node.depth,
        next := Function.update node.next w
          (some (insert ((node.next w).getD (Node.fresh (node.depth + 1))) ws)) } := by
  simp only [insert]
  cases node.next w <;> rfl

theorem insert_idem (node : Node) (words : List Char) :
    insert (insert node words) words = insert node words := by
  induction words generalizing node with
  | nil => rfl
  | cons w ws ih =>
    rw [insert_cons node, insert_cons]
    simp only [Function.update_same, Option.getD_some, ih, Function.update_idem]

theorem AgreeOffSentinel.insert_sentinel (node : Node) :
    AgreeOffSentinel (insert node [sentinel]) node := by
  refine ⟨insert_depth _ _, fun c hc => ?_⟩
  rw [insert_next]
  simp [hc]

theorem AgreeOffSentinel.insert (a b : Node) (h : AgreeOffSentinel a b) (words : List Char) :
    AgreeOffSentinel (insert a words) (insert b words) := by
  cases words with
  | nil => exact h
  | cons w ws =>
    refine ⟨by rw [insert_depth, insert_depth]; exact h.1, fun c hc => ?_⟩
    rw [insert_next, insert_next]
    by_cases hcw : c = w
    · subst hcw
      simp [h.2 c hc, h.1]
    · simp [hcw, h.2 c hc]

theorem AgreeOffSentinel.foldl_insert (a b : Node) (h : AgreeOffSentinel a b)
    (ws : List (List Char)) :
    AgreeOffSentinel (ws.foldl TireMatching.insert a) (ws.foldl TireMatching.insert b) := by
  induction ws generalizing a b with
  | nil => exact h
  | cons w ws ih => exact ih _ _ (AgreeOffSentinel.insert a b h w)

theorem AgreeOffSentinel.descent (a b : Node) (h : AgreeOffSentinel a b) (R : List Char)
    (hR : sentinel ∉ R) : Spec.descent a R = Spec.descent b R := by
  cases R with
  | nil => rfl
  | cons u rest =>
    simp only [Spec.descent]
    rw [h.2 u (fun hu => hR (by simp [hu]))]

theorem AgreeOffSentinel.scan (a b : Node) (h : AgreeOffSentinel a b) (R : List Char)
    (hR : sentinel ∉ R) : Spec.scan a R = Spec.scan b R := by
  generalize hn : R.length = n
  induction n using Nat.strong_induction_on generalizing R with
  | _ n ih =>
    subst hn
    cases R with
    | nil => rw [Spec.scan, Spec.scan]
    | cons u rest =>
      rw [Spec.scan, Spec.scan, AgreeOffSentinel.descent a b h _ hR]
      congr 1
      apply ih _ _ _ _ rfl
      · simp only [List.length_drop, List.length_cons]; omega
      · intro hmem
        exact hR (List.mem_of_mem_drop (List.mem_of_mem_drop hmem))

/-- Claim C9 as stated fails: with the keyword "x", the text of the three units
sentinel, "a", "x" gives "x"; with the empty keyword appended as well it gives nothing,
because the attempt at the sentinel now takes the sentinel edge of the root and consumes
the unit "a" too. -/
theorem append_empty_changes_match :
    ((Trie.new.appendAll ["x"]).match (String.mk [sentinel, 'a', 'x'])).2 = ["x"] ∧
    ((Trie.new.appendAll ["x", ""]).match (String.mk [sentinel, 'a', 'x'])).2 = [] ∧
    ((Trie.new.appendAll ["x", ""]).match (String.mk [sentinel, 'a', 'x'])).2
      ≠ ((Trie.new.appendAll ["x"]).match (String.mk [sentinel, 'a', 'x'])).2 := by
  have h1 : ((Trie.new.appendAll ["x"]).match (String.mk [sentinel, 'a', 'x'])).2 = ["x"] := by
    simp [Trie.match, matchLoop, query, insert, Trie.appendAll, Trie.append, Trie.new,
      Node.fresh, Function.update_apply, sentinel]
  have h2 : ((Trie.new.appendAll ["x", ""]).match (String.mk [sentinel, 'a', 'x'])).2 = [] := by
    simp [Trie.match, matchLoop, query, insert, Trie.appendAll, Trie.append, Trie.new,
      Node.fresh, Function.update_apply, sentinel]
  refine ⟨h1, h2, ?_⟩
  rw [h1, h2]
  simp

/-- Claim C9, amended: for every text without the sentinel character, the trie built from
a keyword list with the empty keyword appended at any position returns from `match` the
list returned by the trie built from the keyword list alone. -/
theorem append_empty_noop (ks1 ks2 : List String) (text : String)
    (htext : sentinel ∉ text.toList) :
    ((Trie.new.appendAll (ks1 ++ "" :: ks2)).match text).2
      = ((Trie.new.appendAll (ks1 ++ ks2)).match text).2 := by
  have hagree : AgreeOffSentinel (Trie.new.appendAll (ks1 ++ "" :: ks2)).root
      (Trie.new.appendAll (ks1 ++ ks2)).root := by
    rw [appendAll_root, appendAll_root]
    simp only [List.map_append, List.map_cons, List.foldl_append, List.foldl_cons]
    apply AgreeOffSentinel.foldl_insert
    exact AgreeOffSentinel.insert_sentinel _
  simp only [Trie.match, matchLoop_eq_scan, List.nil_append]
  exact AgreeOffSentinel.scan _ _ hagree _ htext

/-- Witness of the amended claim C9: the keyword lists "x" and "x", "" on the text
"a x". -/
theorem append_empty_noop_witness :
    ((Trie.new.appendAll (["x"] ++ "" :: [])).match "a x").2
      = ((Trie.new.appendAll (["x"] ++ [])).match "a x").2 :=
  append_empty_noop ["x"] [] "a x" (by decide)

/-- Claim C10: after `append(k)`, a second `append(k)` leaves the trie as it is (the root
with all its nodes, edges and depth fields, and the `matched` field); hence `match`
returns the same list for every text. -/
theorem append_twice (ks : List String) (k : String) :
    ((Trie.new.appendAll ks).append k).append k = (Trie.new.appendAll ks).append k ∧
    ∀ text : String,
      ((((Trie.new.appendAll ks).append k).append k).match text).2
        = (((Trie.new.appendAll ks).append k).match text).2 := by
  have h : ((Trie.new.appendAll ks).append k).append k = (Trie.new.appendAll ks).append k := by
    simp only [Trie.append, insert_idem]
  exact ⟨h, fun text => by rw [h]⟩

/-! ## The terminal nodes of the trie -/

theorem terminal_iff_walk (node : Node) (P : List Char) :
    (∃ n, walk node P = some n ∧ (n.next sentinel).isSome = true)
      ↔ (walk node (P ++ [sentinel])).isSome = true := by
  rw [walk_append]
  cases hw : walk node P with
  | none => simp
  | some n => simp [walk_sentinel]

/-- Claim C11 as stated fails: with the one keyword made of "a", the sentinel and "b",
the node reached along "a" exists and has a sentinel child, and "a" is not an appended
keyword. -/
theorem terminal_without_keyword :
    (∃ n, walk (Trie.new.appendAll [String.mk ['a', sentinel, 'b']]).root ['a'] = some n ∧
      (n.next sentinel).isSome = true) ∧
    String.mk ['a'] ∉ [String.mk ['a', sentinel, 'b']] := by
  constructor
  · rw [terminal_iff_walk]
    have h := walk_rootOf [String.mk ['a', sentinel, 'b']] (['a'] ++ [sentinel])
    unfold rootOf at h
    rw [h]
    exact Or.inr ⟨_, List.mem_singleton.mpr rfl, ⟨['b', sentinel], rfl⟩⟩
  · decide

/-- Claim C11, amended: when no appended keyword contains the sentinel, the node reached
from the root along `P` exists and has a sentinel child if and only if `P` is one of the
appended keywords. -/
theorem terminal_iff_keyword (ks : List String) (hs : ∀ k ∈ ks, sentinel ∉ k.toList)
    (P : List Char) :
    (∃ n, walk (Trie.new.appendAll ks).root P = some n ∧ (n.next sentinel).isSome = true)
      ↔ String.mk P ∈ ks := by
  rw [terminal_iff_walk]
  have h := walk_rootOf ks (P ++ [sentinel])
  unfold rootOf at h
  rw [h]
  constructor
  · rintro (h1 | ⟨k, hk, hpre⟩)
    · simp at h1
    · have := eq_of_concat_prefix_concat _ _ _ (hs k hk) hpre
      rw [this]
      exact hk
  · intro hP
    exact Or.inr ⟨String.mk P, hP, List.prefix_refl _⟩

/-- Witness of the amended claim C11: with "ab" and "abc" appended, the node along "ab"
exists and has a sentinel child. -/
theorem terminal_iff_keyword_witness :
    ∃ n, walk (Trie.new.appendAll ["ab", "abc"]).root ['a', 'b'] = some n ∧
      (n.next sentinel).isSome = true :=
  (terminal_iff_keyword ["ab", "abc"] (by decide) ['a', 'b']).mpr (by decide)

/-! ## Empty inputs and examples -/

/-- Claim C12: `match` returns the empty list on the empty text, for every trie, and on
every text when no keyword has been appended. -/
theorem match_empty_inputs :
    (∀ t : Trie, (t.match "").2 = []) ∧
    (∀ text : String, (Trie.new.match text).2 = []) ∧
    (∀ text : String, ((Trie.new.appendAll []).match text).2 = []) := by
  have h2 : ∀ text : String, (Trie.new.match text).2 = [] := by
    intro text
    apply List.eq_nil_iff_forall_not_mem.mpr
    intro m hm
    obtain ⟨S, -, hd, -⟩ := mem_match _ _ _ hm
    obtain ⟨-, -, h3, -⟩ := descent_success _ _ hd
    have h4 := (walk_fresh 0 _).mp h3
    simp at h4
  refine ⟨fun t => ?_, h2, h2⟩
  simp only [Trie.match]
  rw [matchLoop]
  simp

/-- Claim C14: with the single keyword "cat" appended, `match("a cat sat")` returns the
one-element list holding "cat". -/
theorem match_a_cat_sat :
    ((Trie.new.appendAll ["cat"]).match "a cat sat").2 = ["cat"] := by
  simp [Trie.match, matchLoop, query, insert, Trie.appendAll, Trie.append, Trie.new,
    Node.fresh, Function.update_apply, sentinel]

/-- Claim C19: the match results are not monotone in the keyword set: with the keyword
"c" the text "abc" gives "c"; with "ax" appended as well it gives nothing. -/
theorem match_not_monotone :
    ∃ (ks : List String) (k : String) (t : String) (m : String),
      m ∈ ((Trie.new.appendAll ks).match t).2 ∧
      m ∉ ((Trie.new.appendAll (ks ++ [k])).match t).2 ∧
      ((Trie.new.appendAll ks).match t).2 = ["c"] ∧
      ((Trie.new.appendAll (ks ++ [k])).match t).2 = [] := by
  have h1 : ((Trie.new.appendAll ["c"]).match "abc").2 = ["c"] := by
    simp [Trie.match, matchLoop, query, insert, Trie.appendAll, Trie.append, Trie.new,
      Node.fresh, Function.update_apply, sentinel]
  have h2 : ((Trie.new.appendAll (["c"] ++ ["ax"])).match "abc").2 = [] := by
    simp [Trie.match, matchLoop, query, insert, Trie.appendAll, Trie.append, Trie.new,
      Node.fresh, Function.update_apply, sentinel]
  exact ⟨["c"], "ax", "abc", "c", by rw [h1]; simp, by rw [h2]; simp, h1, h2⟩

/-! ## Termination -/

theorem matchFuel_eq_matchLoop (root : Node) (fuel : Nat) (words : List Char)
    (acc : List String) (h : words.length ≤ fuel) :
    matchFuel root fuel words acc = some (matchLoop root words acc) := by
  induction fuel generalizing words acc with
  | zero =>
    have hw : words = [] := List.length_eq_zero.mp (by omega)
    subst hw
    rw [matchLoop]
    simp [matchFuel]
  | succ fuel ih =>
    rw [matchLoop]
    by_cases hpos : words.length > 0
    · simp only [matchFuel, hpos, if_true, dite_true]
      apply ih
      have := query_length_lt root words [] hpos
      simp only [List.length_drop]
      omega
    · simp [matchFuel, hpos]

theorem queryFrames_of_calls_le (frames : Nat) (node : Node) (words matched : List Char)
    (h : queryCalls node words ≤ frames) :
    queryFrames frames node words matched = some (query node words matched) := by
  induction words generalizing frames node matched with
  | nil =>
    cases frames with
    | zero => simp [queryCalls] at h
    | succ frames => rfl
  | cons w ws ih =>
    cases frames with
    | zero =>
      exfalso
      simp only [queryCalls] at h
      cases hn : node.next w with
      | none => simp [hn] at h
      | some child =>
        simp only [hn] at h
        by_cases ht : (child.next sentinel).isSome <;> simp [ht] at h
    | succ frames =>
      simp only [queryFrames, query, queryCalls] at h ⊢
      cases hn : node.next w with
      | none => rfl
      | some child =>
        simp only [hn] at h ⊢
        by_cases ht : (child.next sentinel).isSome
        · simp [ht]
        · simp only [ht, Bool.false_eq_true, if_false] at h ⊢
          exact ih _ _ _ (by omega)

theorem queryFrames_of_lt_calls (frames : Nat) (node : Node) (words matched : List Char)
    (h : frames < queryCalls node words) :
    queryFrames frames node words matched = none := by
  induction frames generalizing node words matched with
  | zero => rfl
  | succ frames ih =>
    cases words with
    | nil => simp [queryCalls] at h
    | cons w ws =>
      simp only [queryFrames, queryCalls] at h ⊢
      cases hn : node.next w with
      | none => simp [hn] at h
      | some child =>
        simp only [hn] at h ⊢
        by_cases ht : (child.next sentinel).isSome
        · simp [ht] at h
        · simp only [ht, Bool.false_eq_true, if_false] at h ⊢
          exact ih _ _ _ (by omega)

theorem queryCalls_pos (node : Node) (words : List Char) : 1 ≤ queryCalls node words := by
  cases words with
  | nil => simp [queryCalls]
  | cons w ws =>
    simp only [queryCalls]
    cases node.next w with
    | none => simp
    | some child => by_cases ht : (child.next sentinel).isSome <;> simp [ht]

theorem queryCalls_le_length (node : Node) (words : List Char) :
    queryCalls node words ≤ words.length + 1 := by
  induction words generalizing node with
  | nil => simp [queryCalls]
  | cons w ws ih =>
    simp only [queryCalls, List.length_cons]
    cases node.next w with
    | none => simp
    | some child =>
      by_cases ht : (child.next sentinel).isSome
      · simp [ht]
      · simp only [ht, Bool.false_eq_true, if_false]
        have := ih child
        omega

/-- The node at which the innermost call of `query` is made exists: it lies at the end
of the path of the first `queryCalls - 1` units. -/
theorem queryCalls_walk (node : Node) (words : List Char) :
    (walk node (words.take (queryCalls node words - 1))).isSome = true := by
  induction words generalizing node with
  | nil => simp [walk]
  | cons w ws ih =>
    simp only [queryCalls]
    cases hn : node.next w with
    | none => simp [walk]
    | some child =>
      by_cases ht : (child.next sentinel).isSome
      · simp [ht, walk]
      · simp only [ht, Bool.false_eq_true, if_false, Nat.add_sub_cancel]
        obtain ⟨c, hc⟩ : ∃ c, queryCalls child ws = c + 1 :=
          ⟨queryCalls child ws - 1, by have := queryCalls_pos child ws; omega⟩
        have := ih child
        rw [hc] at this ⊢
        simpa [walk, hn] using this

theorem queryCalls_rootOf (ks : List String) (frames : Nat) (h1 : 1 ≤ frames)
    (hk : ∀ k ∈ ks, k.length + 2 ≤ frames) (words : List Char) :
    queryCalls (rootOf ks) words ≤ frames := by
  have hw := queryCalls_walk (rootOf ks) words
  have hle := queryCalls_le_length (rootOf ks) words
  rw [walk_rootOf] at hw
  rcases hw with hw | ⟨k, hkm, hpre⟩
  · have := congrArg List.length hw
    simp only [List.length_take, List.length_nil] at this
    omega
  · have h2 := hpre.length_le
    have h3 := hk k hkm
    simp only [List.length_take, entry, List.length_append, List.length_singleton] at h2
    have h4 : k.toList.length = k.length := rfl
    omega

theorem matchLoopFrames_eq_matchLoop (frames : Nat) (root : Node) (words : List Char)
    (acc : List String)
    (h : ∀ S : List Char, S.length ≤ words.length → queryCalls root S ≤ frames) :
    matchLoopFrames frames root words acc = some (matchLoop root words acc) := by
  generalize hn : words.length = n
  induction n using Nat.strong_induction_on generalizing words acc with
  | _ n ih =>
    subst hn
    rw [matchLoopFrames, matchLoop]
    by_cases hpos : words.length > 0
    · simp only [hpos, dite_true]
      have hq := queryFrames_of_calls_le frames root words [] (h words (le_refl _))
      split
      · rename_i hnone
        rw [hq] at hnone
        exact absurd hnone (by simp)
      · rename_i r hsome
        rw [hq] at hsome
        have hr : query root words [] = r := Option.some.inj hsome
        subst hr
        have hlt := query_length_lt root words [] hpos
        apply ih _ _ _ _ _ rfl
        · simp only [List.length_drop]; omega
        · intro S hS
          apply h
          simp only [List.length_drop] at hS
          omega
    · simp [hpos]

theorem matchLoopFrames_raises (frames : Nat) (root : Node) (words : List Char)
    (acc : List String) (h : frames < queryCalls root words) (hpos : words.length > 0) :
    matchLoopFrames frames root words acc = none := by
  rw [matchLoopFrames]
  simp only [hpos, dite_true]
  split
  · rfl
  · rename_i r hsome
    rw [queryFrames_of_lt_calls frames root words [] h] at hsome
    exact absurd hsome (by simp)

theorem matchLoopFrames_step (frames : Nat) (root : Node) (words : List Char)
    (acc : List String) (hpos : words.length > 0)
    (hq : queryFrames frames root words [] = some (query root words [])) :
    matchLoopFrames frames root words acc
      = matchLoopFrames frames root ((query root words []).2.1.drop 1)
          (if (query root words []).1 then acc ++ [String.mk (query root words []).2.2]
            else acc) := by
  conv_lhs => rw [matchLoopFrames]
  simp only [hpos, dite_true]
  split
  · rename_i hnone
    rw [hq] at hnone
    exact absurd hnone (by simp)
  · rename_i r hsome
    rw [hq] at hsome
    have hr : query root words [] = r := Option.some.inj hsome
    subst hr
    rfl

theorem matchLoopFrames_some (frames : Nat) (root : Node) (words : List Char)
    (acc m : List String) (h : matchLoopFrames frames root words acc = some m) :
    m = matchLoop root words acc := by
  generalize hn : words.length = k
  induction k using Nat.strong_induction_on generalizing words acc with
  | _ k ih =>
    subst hn
    by_cases hpos : words.length > 0
    · by_cases hc : queryCalls root words ≤ frames
      · have hq := queryFrames_of_calls_le frames root words [] hc
        rw [matchLoopFrames_step frames root words acc hpos hq] at h
        have hlt := query_length_lt root words [] hpos
        rw [ih _ (by simp only [List.length_drop]; omega) _ _ h rfl]
        conv_rhs => rw [matchLoop]
        simp only [hpos, dite_true]
      · rw [matchLoopFrames_raises frames root words acc (by omega) hpos] at h
        exact absurd h (by simp)
    · rw [matchLoopFrames] at h
      simp only [hpos, dite_false, Option.some.injEq] at h
      rw [matchLoop]
      simp only [hpos, dite_false]
      exact h.symm

theorem queryCalls_insert_fresh (d : Nat) (w x : Char) (xs us : List Char)
    (hx : sentinel ≠ x) :
    queryCalls (insert (Node.fresh d) (w :: x :: xs)) (w :: us)
      = queryCalls (insert (Node.fresh (d + 1)) (x :: xs)) us + 1 := by
  have h1 : (insert (Node.fresh d) (w :: x :: xs)).next w
      = some (insert (Node.fresh (d + 1)) (x :: xs)) := by
    rw [insert_next]
    simp [Node.fresh]
  have h2 : ((insert (Node.fresh (d + 1)) (x :: xs)).next sentinel).isSome = false := by
    rw [insert_next]
    simp [hx, Node.fresh]
  simp only [queryCalls, h1, h2, Bool.false_eq_true, if_false]

theorem queryCalls_long_keyword (j d : Nat) :
    queryCalls (insert (Node.fresh d) (List.replicate (j + 1) 'a' ++ [sentinel]))
      (List.replicate (j + 1) 'a') = j + 1 := by
  induction j generalizing d with
  | zero =>
    simp [queryCalls, insert_next, insert, Node.fresh, List.replicate]
  | succ j ih =>
    have hs : sentinel ≠ 'a' := by decide
    have hrep : List.replicate (j + 1 + 1) 'a' ++ [sentinel]
        = 'a' :: 'a' :: (List.replicate j 'a' ++ [sentinel]) := by
      simp [List.replicate_succ]
    have hrep2 : List.replicate (j + 1) 'a' ++ [sentinel]
        = 'a' :: (List.replicate j 'a' ++ [sentinel]) := by
      simp [List.replicate_succ]
    have hrep3 : List.replicate (j + 1 + 1) 'a' = 'a' :: List.replicate (j + 1) 'a' :=
      List.replicate_succ 'a' (j + 1)
    rw [hrep, hrep3, queryCalls_insert_fresh d 'a' 'a' _ _ hs, ← hrep2, ih]

theorem matchFrames_long_keyword (frames : Nat) :
    (Trie.new.appendAll [String.mk (List.replicate (frames + 1) 'a')]).matchFrames frames
      (String.mk (List.replicate (frames + 1) 'a')) = none := by
  simp only [Trie.matchFrames, Option.map_eq_none']
  apply matchLoopFrames_raises
  · rw [appendAll_root]
    simp only [List.map_cons, List.map_nil, List.foldl_cons, List.foldl_nil, entry, Trie.new]
    change frames < queryCalls (insert (Node.fresh 0)
      (List.replicate (frames + 1) 'a' ++ [sentinel])) (List.replicate (frames + 1) 'a')
    rw [queryCalls_long_keyword]
    omega
  · simp

/-- Claim C13 as stated fails: `query` calls itself once per unit it descends. On a
stack with room for 6999 nested calls of `query`, `match` raises for the keyword and text
of 7000 units "a"; and whatever the room, the keyword and text of one unit more make it
raise. -/
theorem match_raises_on_long_keyword :
    (Trie.new.appendAll [String.mk (List.replicate 7000 'a')]).matchFrames 6999
      (String.mk (List.replicate 7000 'a')) = none ∧
    ∀ frames : Nat,
      (Trie.new.appendAll [String.mk (List.replicate (frames + 1) 'a')]).matchFrames frames
        (String.mk (List.replicate (frames + 1) 'a')) = none :=
  ⟨matchFrames_long_keyword 6999, matchFrames_long_keyword⟩

/-- Claim C13, amended: the loop of `match` ends, within as many turns as the text has
units: `query` fails at once on an empty array and otherwise removes the first unit
before it returns or calls itself, and every turn strictly shortens the array. `match`
returns its list without raising when the call stack has room for two more nested calls
of `query` than the longest appended keyword has units, or for one more than the text has
units. -/
theorem match_terminates (ks : List String) (text : String) (frames : Nat)
    (hroom : (1 ≤ frames ∧ ∀ k ∈ ks, k.length + 2 ≤ frames) ∨ text.length + 1 ≤ frames) :
    (Trie.new.appendAll ks).matchFrames frames text
      = some ((Trie.new.appendAll ks).match text) ∧
    matchFuel (Trie.new.appendAll ks).root text.toList.length text.toList []
      = some ((Trie.new.appendAll ks).match text).2 ∧
    (∀ (node : Node) (matched : List Char), query node [] matched = (false, [], [])) ∧
    (∀ (node : Node) (w : Char) (ws matched : List Char),
      (query node (w :: ws) matched).2.1.length ≤ ws.length) ∧
    (∀ words : List Char, 0 < words.length →
      ((query (Trie.new.appendAll ks).root words []).2.1.drop 1).length < words.length) := by
  refine ⟨?_, ?_, fun _ _ => rfl, ?_, ?_⟩
  · have hcalls : ∀ S : List Char, S.length ≤ text.toList.length →
        queryCalls (Trie.new.appendAll ks).root S ≤ frames := by
      intro S hS
      rcases hroom with ⟨h1, hk⟩ | ht
      · exact queryCalls_rootOf ks frames h1 hk S
      · have := queryCalls_le_length (Trie.new.appendAll ks).root S
        have h4 : text.toList.length = text.length := rfl
        omega
    simp only [Trie.matchFrames, matchLoopFrames_eq_matchLoop _ _ _ _ hcalls, Option.map_some']
    rfl
  · exact matchFuel_eq_matchLoop _ _ _ _ (le_refl _)
  · intro node w ws matched
    simp only [query]
    cases hn : node.next w with
    | none => simp
    | some child =>
      by_cases ht : (child.next sentinel).isSome
      · simp [ht]
      · simpa [ht] using query_length_le child ws (matched ++ [w])
  · intro words hpos
    have := query_length_lt (Trie.new.appendAll ks).root words [] hpos
    simp only [List.length_drop]
    omega

/-- Witness of the amended claim C13: the keyword "aa" and the text "aaaa" on a stack
with room for four nested calls of `query`. -/
theorem match_terminates_witness :
    (Trie.new.appendAll ["aa"]).matchFrames 4 "aaaa"
      = some ((Trie.new.appendAll ["aa"]).match "aaaa") ∧
    matchFuel (Trie.new.appendAll ["aa"]).root 4 "aaaa".toList []
      = some ((Trie.new.appendAll ["aa"]).match "aaaa").2 ∧
    ((query (Trie.new.appendAll ["aa"]).root "aaaa".toList []).2.1.drop 1).length
      < "aaaa".toList.length :=
  ⟨(match_terminates ["aa"] "aaaa" 4 (Or.inl (by decide))).1,
   (match_terminates ["aa"] "aaaa" 4 (Or.inl (by decide))).2.1,
   (match_terminates ["aa"] "aaaa" 4 (Or.inl (by decide))).2.2.2.2 "aaaa".toList (by decide)⟩

/-! ## Order of insertion -/

theorem insert_comm (node : Node) (a b : List Char) :
    insert (insert node a) b = insert (insert node b) a := by
  induction a generalizing node b with
  | nil => rfl
  | cons x as ih =>
    cases b with
    | nil => rfl
    | cons y bs =>
      by_cases hxy : x = y
      · subst hxy
        rw [insert_cons node x as, insert_cons node x bs, insert_cons, insert_cons]
        simp only [Function.update_same, Option.getD_some, Function.update_idem, ih]
      · rw [insert_cons node x as, insert_cons node y bs, insert_cons, insert_cons]
        simp only [Function.update_noteq (Ne.symm hxy), Function.update_noteq hxy]
        rw [Function.update_comm hxy]

theorem append_comm (t : Trie) (a b : String) :
    (t.append a).append b = (t.append b).append a := by
  simp only [Trie.append, insert_comm t.root (a.toList ++ [sentinel])]

/-- Claim C18: the trie does not depend on the order of insertion: appending a keyword
list and appending a permutation of it to fresh tries give equal tries (the same edges
and the same depth field at every node), so `match` returns the same list for every
text. -/
theorem appendAll_perm (ks ks2 : List String) (h : ks.Perm ks2) :
    Trie.new.appendAll ks = Trie.new.appendAll ks2 ∧
    ∀ text : String,
      ((Trie.new.appendAll ks).match text).2 = ((Trie.new.appendAll ks2).match text).2 := by
  have heq : Trie.new.appendAll ks = Trie.new.appendAll ks2 :=
    List.Perm.foldl_eq' h (fun x _ y _ z => append_comm z x y) Trie.new
  exact ⟨heq, fun text => by rw [heq]⟩

/-- Witness of claim C18: "ab", "abc" and "abc", "ab". -/
theorem appendAll_perm_witness :
    Trie.new.appendAll ["ab", "abc"] = Trie.new.appendAll ["abc", "ab"] ∧
    ∀ text : String,
      ((Trie.new.appendAll ["ab", "abc"]).match text).2
        = ((Trie.new.appendAll ["abc", "ab"]).match text).2 :=
  appendAll_perm ["ab", "abc"] ["abc", "ab"] (List.Perm.swap _ _ _)

/-! ## Relabelling of the code points -/

theorem map_prefix_map_iff (f : Char → Char) (hf : Function.Injective f) (q l : List Char) :
    q.map f <+: l.map f ↔ q <+: l := by
  induction q generalizing l with
  | nil => simp
  | cons a q ih =>
    cases l with
    | nil => simp
    | cons b l => simp [List.cons_prefix_cons, ih, hf.eq_iff]

theorem sameShape_next (f : Char → Char) (a b : Node) (h : SameShape f a b) (u : Char) :
    (b.next (f u)).isSome = (a.next u).isSome := by
  have := h [u]
  simp only [List.map_cons, List.map_nil, walk] at this
  cases hb : b.next (f u) <;> cases ha : a.next u <;> simp [hb, ha] at this ⊢

theorem sameShape_child (f : Char → Char) (a b : Node) (h : SameShape f a b) (u : Char)
    (ac bc : Node) (ha : a.next u = some ac) (hb : b.next (f u) = some bc) :
    SameShape f ac bc := by
  intro q
  have := h (u :: q)
  simpa only [List.map_cons, walk, ha, hb] using this

theorem sameShape_descent (f : Char → Char) (hs : f sentinel = sentinel) (a b : Node)
    (h : SameShape f a b) (R : List Char) :
    Spec.descent b (R.map f) = Spec.descent a R := by
  induction R generalizing a b with
  | nil => rfl
  | cons u rest ih =>
    simp only [List.map_cons, Spec.descent]
    have hn := sameShape_next f a b h u
    cases hb : b.next (f u) with
    | none =>
      cases ha : a.next u with
      | none => rfl
      | some ac => rw [hb, ha] at hn; simp at hn
    | some bc =>
      cases ha : a.next u with
      | none => rw [hb, ha] at hn; simp at hn
      | some ac =>
        have hc := sameShape_child f a b h u ac bc ha hb
        have ht : Spec.isTerminal bc = Spec.isTerminal ac := by
          have := sameShape_next f ac bc hc sentinel
          rw [hs] at this
          exact this
        simp only [ht, ih ac bc hc]

theorem sameShape_scan (f : Char → Char) (hs : f sentinel = sentinel) (a b : Node)
    (h : SameShape f a b) (R : List Char) :
    Spec.scan b (R.map f) = (Spec.scan a R).map (relabel f) := by
  generalize hn : R.length = n
  induction n using Nat.strong_induction_on generalizing R with
  | _ n ih =>
    subst hn
    cases R with
    | nil => rw [List.map_nil, Spec.scan, Spec.scan]; rfl
    | cons u rest =>
      rw [List.map_cons, Spec.scan, Spec.scan, ← List.map_cons,
        sameShape_descent f hs a b h (u :: rest)]
      rw [List.map_append, ← List.map_drop, ← List.map_drop, ← List.map_take]
      rw [ih _ (by simp only [List.length_drop, List.length_cons]; omega) _ rfl]
      by_cases hd : (Spec.descent a (u :: rest)).1 <;> simp [hd, relabel]

theorem entry_relabel (f : Char → Char) (hs : f sentinel = sentinel) (k : String) :
    entry (relabel f k) = (entry k).map f := by
  simp [entry, relabel, hs]

theorem sameShape_rootOf (f : Char → Char) (hf : Function.Injective f)
    (hs : f sentinel = sentinel) (ks : List String) :
    SameShape f (rootOf ks) (rootOf (ks.map (relabel f))) := by
  intro q
  rw [Bool.eq_iff_iff, walk_rootOf, walk_rootOf]
  constructor
  · rintro (h | ⟨k, hk, hpre⟩)
    · exact Or.inl (by simpa using h)
    · obtain ⟨k0, hk0, rfl⟩ := List.mem_map.mp hk
      rw [entry_relabel f hs, map_prefix_map_iff f hf] at hpre
      exact Or.inr ⟨k0, hk0, hpre⟩
  · rintro (h | ⟨k, hk, hpre⟩)
    · exact Or.inl (by simp [h])
    · refine Or.inr ⟨relabel f k, List.mem_map.mpr ⟨k, hk, rfl⟩, ?_⟩
      rw [entry_relabel f hs, map_prefix_map_iff f hf]
      exact hpre

/-- Claim C15: matching depends only on the equality of code points: for an injective
relabelling `f` of the code points that fixes the sentinel, `match` over the trie built
from the images of the keywords, applied to the image of the text, returns the images of
the strings that `match` returns for the keywords and the text themselves. -/
theorem match_relabel (f : Char → Char) (hf : Function.Injective f)
    (hs : f sentinel = sentinel) (ks : List String) (text : String) :
    ((Trie.new.appendAll (ks.map (relabel f))).match (relabel f text)).2
      = ((Trie.new.appendAll ks).match text).2.map (relabel f) := by
  simp only [Trie.match, matchLoop_eq_scan, List.nil_append]
  exact sameShape_scan f hs _ _ (sameShape_rootOf f hf hs ks) text.toList

theorem toCyrillic_injective : Function.Injective toCyrillic :=
  (Equiv.swap 't' 'т').injective.comp
    ((Equiv.swap 'a' 'а').injective.comp (Equiv.swap 'c' 'к').injective)

/-- Witness of claim C15: the keyword "cat" and the text "a cat sat" under the exchange
of the Latin letters c, a, t with the Cyrillic letters к, а, т; the Cyrillic keyword is
found in the relabelled text as "cat" is in the Latin one. -/
theorem match_relabel_witness :
    ((Trie.new.appendAll ["кат"]).match "а кат sат").2 = ["кат"] ∧
    ((Trie.new.appendAll (["cat"].map (relabel toCyrillic))).match
        (relabel toCyrillic "a cat sat")).2
      = ((Trie.new.appendAll ["cat"]).match "a cat sat").2.map (relabel toCyrillic) :=
  ⟨by simp [Trie.match, matchLoop, query, insert, Trie.appendAll, Trie.append, Trie.new,
      Node.fresh, Function.update_apply, sentinel],
   match_relabel toCyrillic toCyrillic_injective (by decide) ["cat"] "a cat sat"⟩

end TireMatching

/-! # Theorems on the variant with an end-of-word flag -/

namespace Optimized

open TireMatching (sentinel)

/-- The node reached from `node` along `path`, when every edge of the path exists. -/
def walk (node : TrieNode) : List Char → Option TrieNode
  | [] => some node
  | c :: path =>
    match node.children c with
    | some child => walk child path
    | none => none

/-- The path `p` from `node` exists and ends in a node whose `isEndOfWord` is set. -/
def Flagged (node : TrieNode) (p : List Char) : Prop :=
  ∃ n, walk node p = some n ∧ n.isEndOfWord = true

/-- Claim C6, evaluated on the code: with the keyword "cat" and the text "a cat sat" the
trie of `TrieMatching-optimized.js` returns the empty list, the trie of `TireMatching.js`
returns "cat". -/
theorem optimized_misses_cat :
    ((Trie.new.appendAll ["cat"]).match "a cat sat").2 = [] ∧
    ((TireMatching.Trie.new.appendAll ["cat"]).match "a cat sat").2 = ["cat"] := by
  constructor
  · simp [Trie.match, matchLoop, query, insert, Trie.appendAll, Trie.append, Trie.new,
      TrieNode.new, Function.update_apply, sentinel]
  · simp [TireMatching.Trie.match, TireMatching.matchLoop, TireMatching.query,
      TireMatching.insert, TireMatching.Trie.appendAll, TireMatching.Trie.append,
      TireMatching.Trie.new, TireMatching.Node.fresh, Function.update_apply, sentinel]

theorem optimized_insert_cons (node : TrieNode) (w : Char) (ws : List Char) :
    insert node (w :: ws) =
      { depth := node.depth,
        children := Function.update node.children w
          (some (insert ((node.children w).getD TrieNode.new) ws)),
        isEndOfWord := node.isEndOfWord } := by
  simp only [insert]
  cases node.children w <;> rfl

theorem flagged_new (p : List Char) : ¬ Flagged TrieNode.new p := by
  rintro ⟨n, hw, hf⟩
  cases p with
  | nil =>
    simp only [walk, Option.some.injEq] at hw
    subst hw
    simp [TrieNode.new] at hf
  | cons c p => simp [walk, TrieNode.new] at hw

theorem flagged_cons (node : TrieNode) (c : Char) (p : List Char) :
    Flagged node (c :: p) ↔ ∃ child, node.children c = some child ∧ Flagged child p := by
  unfold Flagged
  simp only [walk]
  cases node.children c with
  | none => simp
  | some child => simp

theorem flagged_insert (node : TrieNode) (words p : List Char) :
    Flagged (insert node words) p ↔ Flagged node p ∨ p = words := by
  induction words generalizing node p with
  | nil =>
    cases p with
    | nil => simp [Flagged, walk, insert]
    | cons c p => simp [flagged_cons, insert]
  | cons w ws ih =>
    rw [optimized_insert_cons]
    cases p with
    | nil => simp [Flagged, walk]
    | cons c p =>
      rw [flagged_cons, flagged_cons]
      by_cases hc : c = w
      · subst hc
        simp only [Function.update_same, Option.some.injEq, exists_eq_left', ih,
          List.cons.injEq, true_and]
        cases hn : node.children c with
        | none => simp [flagged_new]
        | some child => simp
      · simp [Function.update_noteq hc, hc]

theorem optimized_appendAll_root (t : Trie) (ks : List String) :
    (t.appendAll ks).root
      = (ks.map (fun k => k.toList ++ [sentinel])).foldl insert t.root := by
  induction ks generalizing t with
  | nil => rfl
  | cons k ks ih =>
    simp only [Trie.appendAll, List.foldl_cons, List.map_cons] at ih ⊢
    rw [ih]
    rfl

theorem flagged_foldl_insert (node : TrieNode) (ws : List (List Char)) (p : List Char) :
    Flagged (ws.foldl insert node) p ↔ Flagged node p ∨ p ∈ ws := by
  induction ws generalizing node with
  | nil => simp
  | cons w ws ih =>
    simp only [List.foldl_cons, ih, flagged_insert, List.mem_cons, or_assoc]

/-- In the trie built by appends the flag is set exactly at the ends of the paths made
of a keyword followed by the sentinel. -/
theorem flagged_root (ks : List String) (p : List Char) :
    Flagged (Trie.new.appendAll ks).root p ↔ ∃ k ∈ ks, p = k.toList ++ [sentinel] := by
  rw [optimized_appendAll_root, flagged_foldl_insert]
  have h0 : ¬ Flagged Trie.new.root p := flagged_new p
  simp only [h0, false_or, List.mem_map]
  constructor
  · rintro ⟨k, hk, rfl⟩
    exact ⟨k, hk, rfl⟩
  · rintro ⟨k, hk, rfl⟩
    exact ⟨k, hk, rfl⟩

theorem optimized_query_success (node : TrieNode) (words matched : List Char)
    (h : (query node words matched).1 = true) :
    ∃ n, 1 ≤ n ∧ n ≤ words.length ∧
      (query node words matched).2.2 = matched ++ words.take n ∧
      Flagged node (words.take n) := by
  induction words generalizing node matched with
  | nil => simp [query] at h
  | cons w ws ih =>
    simp only [query] at h ⊢
    cases hn : node.children w with
    | none => simp [hn] at h
    | some child =>
      simp only [hn] at h ⊢
      by_cases hf : child.isEndOfWord
      · refine ⟨1, le_refl _, by simp, by simp [hf], ?_⟩
        simp only [List.take_succ_cons, List.take_zero, flagged_cons]
        exact ⟨child, hn, child, rfl, hf⟩
      · simp only [hf, Bool.false_eq_true, if_false] at h ⊢
        obtain ⟨n, h1, h2, h3, h4⟩ := ih child (matched ++ [w]) h
        refine ⟨n + 1, by omega, by simp; omega, ?_, ?_⟩
        · rw [h3]; simp
        · simp only [List.take_succ_cons, flagged_cons]
          exact ⟨child, hn, h4⟩

theorem optimized_query_rest (node : TrieNode) (words matched : List Char) :
    (query node words matched).2.1 <:+ words := by
  induction words generalizing node matched with
  | nil => simp [query]
  | cons w ws ih =>
    simp only [query]
    cases hn : node.children w with
    | none => exact List.suffix_cons _ _
    | some child =>
      by_cases hf : child.isEndOfWord
      · simp only [hf, if_true]
        exact List.suffix_cons _ _
      · simp only [hf, Bool.false_eq_true, if_false]
        exact (ih child (matched ++ [w])).trans (List.suffix_cons _ _)

theorem optimized_mem_matchLoop (root : TrieNode) (words : List Char) (acc : List String)
    (m : String) (h : m ∈ matchLoop root words acc) :
    m ∈ acc ∨ ∃ S, S <:+ words ∧ (query root S []).1 = true ∧
      m = String.mk (query root S []).2.2 := by
  generalize hn : words.length = n at h
  induction n using Nat.strong_induction_on generalizing words acc with
  | _ n ih =>
    subst hn
    rw [matchLoop] at h
    by_cases hpos : words.length > 0
    · simp only [hpos, dite_true] at h
      have hlt := optimized_query_length_lt root words [] hpos
      rcases ih _ (by simp only [List.length_drop]; omega) _ _ h rfl with h1 | ⟨S, hS, h2, h3⟩
      · by_cases hq : (query root words []).1
        · simp only [hq, if_true, List.mem_append, List.mem_singleton] at h1
          rcases h1 with h1 | h1
          · exact Or.inl h1
          · exact Or.inr ⟨words, List.suffix_refl _, hq, h1⟩
        · simp only [hq, Bool.false_eq_true, if_false] at h1
          exact Or.inl h1
      · refine Or.inr ⟨S, hS.trans ((List.drop_suffix _ _).trans ?_), h2, h3⟩
        have hq := optimized_query_rest root words []
        exact hq
    · simp only [hpos, dite_false] at h
      exact Or.inl h

/-- Claim C17: in `TrieMatching-optimized.js` the flag `isEndOfWord` is only set on nodes
reached through a sentinel edge, every string returned by `match` ends with the sentinel
character, and so for a text without the sentinel `match` returns the empty list,
whatever keywords were appended. -/
theorem optimized_match_needs_sentinel (ks : List String) (text : String) :
    (∀ p : List Char, Flagged (Trie.new.appendAll ks).root p → p.getLast? = some sentinel) ∧
    (∀ m ∈ ((Trie.new.appendAll ks).match text).2, m.toList.getLast? = some sentinel) ∧
    (sentinel ∉ text.toList → ((Trie.new.appendAll ks).match text).2 = []) := by
  have hflag : ∀ p : List Char, Flagged (Trie.new.appendAll ks).root p →
      p.getLast? = some sentinel := by
    intro p hp
    rw [flagged_root] at hp
    obtain ⟨k, -, rfl⟩ := hp
    simp
  have key : ∀ m ∈ ((Trie.new.appendAll ks).match text).2,
      m.toList.getLast? = some sentinel ∧ m.toList <:+: text.toList := by
    intro m hm
    simp only [Trie.match] at hm
    rcases optimized_mem_matchLoop _ _ _ _ hm with h | ⟨S, hS, hq, rfl⟩
    · simp at h
    · obtain ⟨n, h1, h2, h3, h4⟩ := optimized_query_success _ _ _ hq
      rw [flagged_root] at h4
      obtain ⟨k, -, hk⟩ := h4
      simp only [List.nil_append] at h3
      constructor
      · simp only [String.toList, h3, hk]
        simp
      · simp only [String.toList, h3]
        exact ((List.take_prefix n S).isInfix).trans hS.isInfix
  refine ⟨hflag, fun m hm => (key m hm).1, fun hno => ?_⟩
  apply List.eq_nil_iff_forall_not_mem.mpr
  intro m hm
  obtain ⟨h1, h2⟩ := key m hm
  exact hno (h2.subset (List.mem_of_mem_getLast? h1))

/-- Witness of claim C17: the keyword "cat" and the text "a cat sat", which has no
sentinel, give the empty list; with the sentinel behind "cat" in the text the keyword is
returned with the sentinel at its end. -/
theorem optimized_match_needs_sentinel_witness :
    ((Trie.new.appendAll ["cat"]).match "a cat sat").2 = [] ∧
    ((Trie.new.appendAll ["cat"]).match (String.mk ['c', 'a', 't', sentinel])).2
      = [String.mk ['c', 'a', 't', sentinel]] :=
  ⟨(optimized_match_needs_sentinel ["cat"] "a cat sat").2.2 (by decide),
   by simp [Trie.match, matchLoop, query, insert, Trie.appendAll, Trie.append, Trie.new,
      TrieNode.new, Function.update_apply, sentinel]⟩

end Optimized

/-! # Theorems on the PHP implementation -/

namespace PHP

/-- The node reached from `node` along `path`, when every edge of the path exists. -/
def walk (node : Node) : List String → Option Node
  | [] => some node
  | c :: path =>
    match getKey node.next c with
    | some child => walk child path
    | none => none

/-- The root of the PHP trie obtained by appending `ks` in order. -/
def rootOf (ks : List String) : Node := (Trie.new.appendAll ks).root

theorem getKey_setKey (l : List (String × Node)) (key : String) (value : Node) (c : String) :
    getKey (setKey l key value) c = if c = key then some value else getKey l c := by
  induction l with
  | nil =>
    by_cases h : c = key
    · simp [setKey, getKey, h]
    · simp [setKey, getKey, h, Ne.symm h]
  | cons e rest ih =>
    obtain ⟨k, v⟩ := e
    by_cases hk : k = key
    · subst hk
      by_cases h : c = k
      · simp [setKey, getKey, h]
      · simp [setKey, getKey, h, Ne.symm h]
    · by_cases h : c = key
      · subst h
        simp [setKey, getKey, hk, ih]
      · simp only [setKey, hk, if_false, getKey, ih, h]

theorem php_insert_next (node : Node) (w : String) (ws : List String) (c : String) :
    getKey (insert node (w :: ws)).next c =
      if c = w then
        some (insert ((getKey node.next w).getD { depth := node.depth + 1, next := [] }) ws)
      else getKey node.next c := by
  simp only [insert]
  cases hn : getKey node.next w <;> simp [getKey_setKey]

theorem php_walk_fresh (d : Nat) (p : List String) :
    (walk { depth := d, next := [] } p).isSome ↔ p = [] := by
  cases p <;> simp [walk, getKey]

theorem php_walk_insert (node : Node) (words p : List String) :
    (walk (insert node words) p).isSome ↔ (walk node p).isSome ∨ p <+: words := by
  induction words generalizing node p with
  | nil => cases p <;> simp [insert, walk]
  | cons w ws ih =>
    cases p with
    | nil => simp [walk]
    | cons c p =>
      simp only [walk, php_insert_next]
      by_cases hc : c = w
      · subst hc
        simp only [if_true, ih, List.cons_prefix_cons, true_and]
        cases hn : getKey node.next c with
        | none => simp [php_walk_fresh]; intro h; simp [h]
        | some child => simp
      · simp [hc, List.cons_prefix_cons]

theorem php_appendAll_root (t : Trie) (ks : List String) :
    (t.appendAll ks).root
      = (ks.map (fun k => preg_split k ++ [sentinel])).foldl insert t.root := by
  induction ks generalizing t with
  | nil => rfl
  | cons k ks ih =>
    simp only [Trie.appendAll, List.foldl_cons, List.map_cons] at ih ⊢
    rw [ih]
    rfl

theorem php_walk_foldl_insert (node : Node) (ws : List (List String)) (p : List String) :
    (walk (ws.foldl insert node) p).isSome ↔ (walk node p).isSome ∨ ∃ w ∈ ws, p <+: w := by
  induction ws generalizing node with
  | nil => simp
  | cons w ws ih =>
    simp only [List.foldl_cons, ih, php_walk_insert, List.mem_cons, exists_eq_or_imp, or_assoc]

theorem php_walk_rootOf (ks : List String) (p : List String) :
    (walk (rootOf ks) p).isSome ↔ p = [] ∨ ∃ k ∈ ks, p <+: preg_split k ++ [sentinel] := by
  unfold rootOf
  rw [php_appendAll_root, php_walk_foldl_insert]
  simp [Trie.new, php_walk_fresh]

/-- The PHP node `p` has the paths of the node `j` of `src/TireMatching.js`, unit by
unit, and no path that goes on with the empty string. -/
def Sim (j : TireMatching.Node) (p : Node) : Prop :=
  (∀ q : List Char, (walk p (q.map unit)).isSome = (TireMatching.walk j q).isSome) ∧
  (∀ q : List Char, (walk p (q.map unit ++ [""])).isSome = false)

theorem unit_injective : Function.Injective unit := by
  intro a b h
  have h2 : (unit a).data = (unit b).data := congrArg String.data h
  simpa [unit] using h2

theorem unit_ne_empty (c : Char) : unit c ≠ "" := by
  intro h
  have := congrArg String.length h
  simp [unit, String.length] at this

theorem Sim.next (j : TireMatching.Node) (p : Node) (h : Sim j p) (u : Char) :
    (getKey p.next (unit u)).isSome = (j.next u).isSome := by
  have := h.1 [u]
  simp only [List.map_cons, List.map_nil, walk, TireMatching.walk] at this
  cases hp : getKey p.next (unit u) <;> cases hj : j.next u <;> simp [hp, hj] at this ⊢

theorem Sim.null (j : TireMatching.Node) (p : Node) (h : Sim j p) :
    getKey p.next "" = none := by
  have := h.2 []
  simp only [List.map_nil, List.nil_append, walk] at this
  cases hp : getKey p.next "" <;> simp [hp] at this ⊢

theorem Sim.child (j : TireMatching.Node) (p : Node) (h : Sim j p) (u : Char)
    (jc : TireMatching.Node) (pc : Node) (hj : j.next u = some jc)
    (hp : getKey p.next (unit u) = some pc) : Sim jc pc := by
  constructor
  · intro q
    have := h.1 (u :: q)
    simpa only [List.map_cons, walk, TireMatching.walk, hj, hp] using this
  · intro q
    have := h.2 (u :: q)
    simpa only [List.map_cons, List.cons_append, walk, hp] using this

theorem Sim.terminal (j : TireMatching.Node) (p : Node) (h : Sim j p) :
    (getKey p.next sentinel).isSome = (j.next TireMatching.sentinel).isSome :=
  Sim.next j p h TireMatching.sentinel

/-- One attempt of the PHP `query` on the units of `R` gives the result of the descent
of `src/TireMatching.js` on `R`, on nodes with the same paths. -/
theorem query_sim (j : TireMatching.Node) (p : Node) (h : Sim j p) (R m : List Char) :
    query p (R.map unit) (m.map unit) =
      ((TireMatching.Spec.descent j R).1,
        if (TireMatching.Spec.descent j R).1
        then (m ++ R.take (TireMatching.Spec.descent j R).2).map unit else []) := by
  induction R generalizing j p m with
  | nil =>
    rw [query]
    simp only [List.map_nil, List.head?_nil, Option.getD_none]
    split
    · rename_i child hc
      rw [Sim.null j p h] at hc
      exact absurd hc (by simp)
    · simp [TireMatching.Spec.descent]
  | cons u rest ih =>
    rw [query]
    simp only [List.map_cons, List.head?_cons, Option.getD_some, List.tail_cons,
      TireMatching.Spec.descent]
    have hn := Sim.next j p h u
    split
    · rename_i pc hpc
      cases hj : j.next u with
      | none => rw [hpc, hj] at hn; simp at hn
      | some jc =>
        have hs := Sim.child j p h u jc pc hj hpc
        have ht := Sim.terminal jc pc hs
        simp only [TireMatching.Spec.isTerminal]
        by_cases hterm : (jc.next TireMatching.sentinel).isSome
        · simp [hterm, ht]
        · simp only [hterm, ht, Bool.false_eq_true, if_false]
          have := ih jc pc hs (m ++ [u])
          simp only [List.map_append, List.map_cons, List.map_nil] at this
          rw [this]
          by_cases hd : (TireMatching.Spec.descent jc rest).1 <;> simp [hd]
    · rename_i hpc
      cases hj : j.next u with
      | none => simp
      | some jc => rw [hpc, hj] at hn; simp at hn

theorem map_unit_prefix (q l : List Char) : q.map unit <+: l.map unit ↔ q <+: l := by
  induction q generalizing l with
  | nil => simp
  | cons a q ih =>
    cases l with
    | nil => simp
    | cons b l => simp [List.cons_prefix_cons, ih, unit_injective.eq_iff]

theorem preg_split_units (s : String) (h1 : s ≠ "")
    (h2 : s.toList.getLast? ≠ some '\n') : preg_split s = s.toList.map unit := by
  have h3 : s.toList ≠ [] := by
    intro h
    apply h1
    cases s
    exact congrArg String.mk h
  have h4 : ¬ (2 ≤ s.toList.length ∧ s.toList.getLast? = some '\n') := fun h => h2 h.2
  simp only [preg_split, h4, h3, if_false]

theorem entry_units (k : String) (h1 : k ≠ "") (h2 : k.toList.getLast? ≠ some '\n') :
    preg_split k ++ [sentinel] = (TireMatching.entry k).map unit := by
  rw [preg_split_units k h1 h2]
  simp [TireMatching.entry, sentinel]

theorem sim_rootOf (ks : List String)
    (hk : ∀ k ∈ ks, k ≠ "" ∧ k.toList.getLast? ≠ some '\n') :
    Sim (TireMatching.rootOf ks) (rootOf ks) := by
  constructor
  · intro q
    rw [Bool.eq_iff_iff, php_walk_rootOf, TireMatching.walk_rootOf]
    constructor
    · rintro (h | ⟨k, hks, hpre⟩)
      · exact Or.inl (by simpa using h)
      · rw [entry_units k (hk k hks).1 (hk k hks).2, map_unit_prefix] at hpre
        exact Or.inr ⟨k, hks, hpre⟩
    · rintro (h | ⟨k, hks, hpre⟩)
      · exact Or.inl (by simp [h])
      · refine Or.inr ⟨k, hks, ?_⟩
        rw [entry_units k (hk k hks).1 (hk k hks).2, map_unit_prefix]
        exact hpre
  · intro q
    rw [Bool.eq_false_iff]
    intro h
    rw [php_walk_rootOf] at h
    rcases h with h | ⟨k, hks, hpre⟩
    · simp at h
    · rw [entry_units k (hk k hks).1 (hk k hks).2] at hpre
      have hmem : "" ∈ (TireMatching.entry k).map unit :=
        hpre.subset (by simp)
      obtain ⟨c, -, hc⟩ := List.mem_map.mp hmem
      exact unit_ne_empty c hc

theorem join_units (l : List Char) : String.join (l.map unit) = String.mk l := by
  have key : ∀ (acc : String) (l : List Char),
      List.foldl (fun r s => r ++ s) acc (l.map unit) = acc ++ String.mk l := by
    intro acc l
    induction l generalizing acc with
    | nil =>
      apply String.ext
      simp
    | cons c l ih =>
      simp only [List.map_cons, List.foldl_cons, ih]
      apply String.ext
      simp [unit]
  have := key "" l
  simp only [String.join]
  rw [this]
  apply String.ext
  simp

theorem attempt_eq_descent (root : TireMatching.Node) (S : List Char) :
    TireMatching.attempt root S =
      if (TireMatching.Spec.descent root S).1
      then some (String.mk (S.take (TireMatching.Spec.descent root S).2)) else none := by
  simp only [TireMatching.attempt, TireMatching.query_eq_descent]
  by_cases hd : (TireMatching.Spec.descent root S).1 <;> simp [hd]

/-- The PHP loop makes one attempt at every offset: on nodes with the same paths, it
collects the reports of the attempts of `src/TireMatching.js` on all suffixes. -/
theorem matchLoop_sim (j : TireMatching.Node) (p : Node) (h : Sim j p) (R : List Char)
    (acc : List String) :
    matchLoop p (R.map unit) acc = acc ++ R.tails.filterMap (TireMatching.attempt j) := by
  induction R generalizing acc with
  | nil =>
    simp [matchLoop, TireMatching.attempt, TireMatching.query]
  | cons u rest ih =>
    simp only [List.map_cons, matchLoop, List.tails_cons]
    rw [ih]
    have hq := query_sim j p h (u :: rest) []
    simp only [List.map_cons, List.map_nil, List.nil_append] at hq
    rw [hq, List.filterMap_cons, attempt_eq_descent]
    by_cases hd : (TireMatching.Spec.descent j (u :: rest)).1
    · simp only [hd, if_true, join_units]
      simp
    · simp [hd]

theorem tails_drop_suffix (l : List Char) (n : Nat) : (l.drop n).tails <:+ l.tails := by
  induction n generalizing l with
  | zero => exact List.suffix_refl _
  | succ n ih =>
    cases l with
    | nil => exact List.suffix_refl _
    | cons a l =>
      simp only [List.drop_succ_cons, List.tails_cons]
      exact (ih l).trans (List.suffix_cons _ _)

/-- The list of `src/TireMatching.js` is taken from the attempts at some of the offsets,
in order: it is a sublist of the reports at all offsets. -/
theorem scan_sublist_tails (root : TireMatching.Node) (R : List Char) :
    List.Sublist (TireMatching.Spec.scan root R)
      (R.tails.filterMap (TireMatching.attempt root)) := by
  generalize hn : R.length = n
  induction n using Nat.strong_induction_on generalizing R with
  | _ n ih =>
    subst hn
    cases R with
    | nil => rw [TireMatching.Spec.scan]; exact List.nil_sublist _
    | cons u rest =>
      rw [TireMatching.Spec.scan, List.tails_cons, List.filterMap_cons, attempt_eq_descent]
      have hrest : List.Sublist
          (TireMatching.Spec.scan root
            (((u :: rest).drop (TireMatching.Spec.descent root (u :: rest)).2).drop 1))
          (rest.tails.filterMap (TireMatching.attempt root)) := by
        refine (ih _ ?_ _ rfl).trans ?_
        · simp only [List.length_drop, List.length_cons]; omega
        · apply List.Sublist.filterMap
          rw [List.drop_drop, List.drop_succ_cons]
          exact (tails_drop_suffix rest _).sublist
      by_cases hd : (TireMatching.Spec.descent root (u :: rest)).1
      · simp only [hd, if_true, List.singleton_append]
        exact hrest.cons₂ _
      · simpa [hd] using hrest

theorem query_null (j : TireMatching.Node) (p : Node) (h : Sim j p) :
    query p [""] [] = (false, []) := by
  rw [query]
  simp only [List.head?_cons, Option.getD_some]
  split
  · rename_i child hc
    rw [Sim.null j p h] at hc
    exact absurd hc (by simp)
  · rfl

/-- Claim C5 as stated fails: with the keywords "cat" and "dog" and the text
"cat and dog" the PHP implementation returns "cat" and "dog", `src/TireMatching.js`
returns "cat" alone. -/
theorem php_differs_on_cat_and_dog :
    ((Trie.new.appendAll ["cat", "dog"]).match "cat and dog").2 = ["cat", "dog"] ∧
    ((TireMatching.Trie.new.appendAll ["cat", "dog"]).match "cat and dog").2 = ["cat"] ∧
    ((Trie.new.appendAll ["cat", "dog"]).match "cat and dog").2
      ≠ ((TireMatching.Trie.new.appendAll ["cat", "dog"]).match "cat and dog").2 := by
  have h1 : ((Trie.new.appendAll ["cat", "dog"]).match "cat and dog").2 = ["cat", "dog"] := by
    simp [Trie.match, matchLoop, query, insert, Trie.appendAll, Trie.append, Trie.new,
      preg_split, getKey, setKey, sentinel, unit, String.join, TireMatching.sentinel]
  have h2 : ((TireMatching.Trie.new.appendAll ["cat", "dog"]).match "cat and dog").2
      = ["cat"] := by
    simp [TireMatching.Trie.match, TireMatching.matchLoop, TireMatching.query,
      TireMatching.insert, TireMatching.Trie.appendAll, TireMatching.Trie.append,
      TireMatching.Trie.new, TireMatching.Node.fresh, Function.update_apply,
      TireMatching.sentinel]
  refine ⟨h1, h2, ?_⟩
  rw [h1, h2]
  simp

/-- Claim C5, amended: for non-empty keywords, when neither a keyword nor the text ends
in a line feed, the PHP `match` returns, for every offset of the text in order, what one
attempt of `src/TireMatching.js` reports on the text from that offset (the first terminal
node wins), so it advances by one unit per attempt; the list returned by
`src/TireMatching.js` is a sublist of it. -/
theorem php_match_every_offset (ks : List String) (text : String)
    (hk : ∀ k ∈ ks, k ≠ "" ∧ k.toList.getLast? ≠ some '\n')
    (ht : text.toList.getLast? ≠ some '\n') :
    ((Trie.new.appendAll ks).match text).2
      = text.toList.tails.filterMap
          (TireMatching.attempt (TireMatching.Trie.new.appendAll ks).root) ∧
    List.Sublist ((TireMatching.Trie.new.appendAll ks).match text).2
      ((Trie.new.appendAll ks).match text).2 := by
  have hsim : Sim (TireMatching.Trie.new.appendAll ks).root (Trie.new.appendAll ks).root :=
    sim_rootOf ks hk
  have h1 : ((Trie.new.appendAll ks).match text).2
      = text.toList.tails.filterMap
          (TireMatching.attempt (TireMatching.Trie.new.appendAll ks).root) := by
    simp only [Trie.match]
    by_cases he : text = ""
    · subst he
      have hsplit : preg_split "" = [""] := by simp [preg_split]
      rw [hsplit]
      simp [matchLoop, query_null _ _ hsim, TireMatching.attempt, TireMatching.query]
    · rw [preg_split_units text he ht, matchLoop_sim _ _ hsim]
      simp
  refine ⟨h1, ?_⟩
  rw [h1]
  simp only [TireMatching.Trie.match, TireMatching.matchLoop_eq_scan, List.nil_append]
  exact scan_sublist_tails _ _

/-- Witness of the amended claim C5: the keywords "cat" and "dog" and the text
"cat and dog". -/
theorem php_match_every_offset_witness :
    ((Trie.new.appendAll ["cat", "dog"]).match "cat and dog").2
      = "cat and dog".toList.tails.filterMap
          (TireMatching.attempt (TireMatching.Trie.new.appendAll ["cat", "dog"]).root) ∧
    List.Sublist ((TireMatching.Trie.new.appendAll ["cat", "dog"]).match "cat and dog").2
      ((Trie.new.appendAll ["cat", "dog"]).match "cat and dog").2 :=
  php_match_every_offset ["cat", "dog"] "cat and dog" (by decide) (by decide)

end PHP

/-! # Theorems on the object store -/

namespace Heap

open TireMatching (sentinel)

theorem trieAt_append (s : Store) (r : Nat) (o : Obj) (h : r < s.length) :
    trieAt (s ++ [o]) r = trieAt s r := by
  simp only [trieAt, List.getElem?_append_left h]

theorem trieAt_of_getElem (s s2 : Store) (r : Nat) (h : s2[r]? = s[r]?) :
    trieAt s2 r = trieAt s r := by
  simp only [trieAt, h]

theorem kind_units_trie (s : Store) (r : Nat) (ws : List Char) (v : Nat × Nat)
    (h1 : unitsAt s r = some ws) (h2 : trieAt s r = some v) : False := by
  simp only [unitsAt, trieAt] at h1 h2
  split at h1 <;> simp_all

theorem kind_strings_trie (s : Store) (r : Nat) (out : List String) (v : Nat × Nat)
    (h1 : stringsAt s r = some out) (h2 : trieAt s r = some v) : False := by
  simp only [stringsAt, trieAt] at h1 h2
  split at h1 <;> simp_all

/-- One turn of the loop, as a relation between the store before and the store handed to
the next turn. -/
theorem heap_matchLoop_unfold (frames : Nat) (s : Store) (this words : Nat) (s9 : Store)
    (ws : List Char) (hws : unitsAt s words = some ws) (hpos : ws.length > 0)
    (h : matchLoop frames s this words = some s9) :
    ∃ root buffer res s2 s3 ws3,
      trieAt (s ++ [Obj.units []]) this = some (root, buffer) ∧
      query frames (s ++ [Obj.units []]) root words s.length = some (res, s2) ∧
      pushMatched res s2 this s.length = some s3 ∧
      unitsAt s3 words = some ws3 ∧
      matchLoop frames (s3.set words (.units ws3.tail)) this words = some s9 := by
  rw [matchLoop] at h
  split at h
  · exact absurd h (by simp)
  · rename_i ws0 hws0
    have : ws0 = ws := Option.some.inj (hws0.symm.trans hws)
    subst this
    simp only [hpos, dite_true] at h
    split at h
    · exact absurd h (by simp)
    · rename_i root buffer ht
      split at h
      · exact absurd h (by simp)
      · rename_i res s2 hq
        split at h
        · exact absurd h (by simp)
        · rename_i s3 hp
          split at h
          · exact absurd h (by simp)
          · rename_i ws3 hsh
            exact ⟨root, buffer, res, s2, s3, ws3, ht, hq, hp, hsh, h⟩

theorem heap_matchLoop_step (frames : Nat) (s : Store) (this words : Nat)
    (ws : List Char) (root buffer : Nat) (res : Bool) (s2 s3 : Store) (ws3 : List Char)
    (hws : unitsAt s words = some ws) (hpos : ws.length > 0)
    (ht : trieAt (s ++ [Obj.units []]) this = some (root, buffer))
    (hq : query frames (s ++ [Obj.units []]) root words s.length = some (res, s2))
    (hp : pushMatched res s2 this s.length = some s3)
    (hsh : unitsAt s3 words = some ws3) :
    matchLoop frames s this words
      = matchLoop frames (s3.set words (.units ws3.tail)) this words := by
  conv_lhs => rw [matchLoop]
  split
  · rename_i hnone
    rw [hws] at hnone
    exact absurd hnone (by simp)
  · rename_i ws0 hws0
    have : ws0 = ws := Option.some.inj (hws0.symm.trans hws)
    subst this
    simp only [hpos, dite_true]
    split
    · rename_i hnone
      rw [ht] at hnone
      exact absurd hnone (by simp)
    · rename_i root0 buffer0 ht0
      rw [ht] at ht0
      simp only [Option.some.injEq, Prod.mk.injEq] at ht0
      obtain ⟨rfl, rfl⟩ := ht0
      split
      · rename_i hnone
        rw [hq] at hnone
        exact absurd hnone (by simp)
      · rename_i res0 s20 hq0
        rw [hq] at hq0
        simp only [Option.some.injEq, Prod.mk.injEq] at hq0
        obtain ⟨rfl, rfl⟩ := hq0
        split
        · rename_i hnone
          rw [hp] at hnone
          exact absurd hnone (by simp)
        · rename_i s30 hp0
          rw [hp] at hp0
          have : s3 = s30 := Option.some.inj hp0
          subst this
          split
          · rename_i hnone
            rw [hsh] at hnone
            exact absurd hnone (by simp)
          · rename_i ws30 hsh0
            rw [hsh] at hsh0
            have : ws3 = ws30 := Option.some.inj hsh0
            subst this
            rfl

theorem heap_matchLoop_done (frames : Nat) (s : Store) (this words : Nat)
    (ws : List Char) (hws : unitsAt s words = some ws) (hzero : ¬ ws.length > 0) :
    matchLoop frames s this words = some s := by
  rw [matchLoop]
  split
  · rename_i hnone
    rw [hws] at hnone
    exact absurd hnone (by simp)
  · rename_i ws0 hws0
    have : ws0 = ws := Option.some.inj (hws0.symm.trans hws)
    subst this
    simp only [hzero, dite_false]

/-- What the loop of `match` writes: objects allocated before the loop are left as they
were, apart from the array `words` and the array that `this.matched` refers to; the
`Trie` instance keeps its two fields. -/
theorem heap_matchLoop_frame (frames : Nat) (s : Store) (this words : Nat) (s9 : Store)
    (ws : List Char) (root buffer : Nat)
    (h : matchLoop frames s this words = some s9)
    (hws : unitsAt s words = some ws) (ht : trieAt s this = some (root, buffer)) :
    s.length ≤ s9.length ∧ trieAt s9 this = some (root, buffer) ∧
    ∀ r, r < s.length → r ≠ words → r ≠ buffer → s9[r]? = s[r]? := by
  generalize hn : ws.length = n
  induction n using Nat.strong_induction_on generalizing s ws with
  | _ n ih =>
    subst hn
    by_cases hpos : ws.length > 0
    · obtain ⟨root1, buffer1, res, s2, s3, ws3, ht1, hq, hp, hsh, hrec⟩ :=
        heap_matchLoop_unfold frames s this words s9 ws hws hpos h
      have hthis := trieAt_lt _ _ _ ht
      have hwlt := unitsAt_lt _ _ _ hws
      rw [trieAt_append _ _ _ hthis, ht] at ht1
      simp only [Option.some.injEq, Prod.mk.injEq] at ht1
      obtain ⟨rfl, rfl⟩ := ht1
      have hne : words ≠ s.length := Nat.ne_of_lt hwlt
      have hw1 : unitsAt (s ++ [Obj.units []]) words = some ws := by
        rw [unitsAt_append _ _ _ hwlt, hws]
      obtain ⟨hl2, hf2⟩ := heap_query_frame _ _ _ _ _ _ _ hq
      obtain ⟨ws2, hu2, hle2⟩ := heap_query_units _ _ _ _ _ _ _ _ hq hne hw1
      have hthisw : this ≠ words := fun e => kind_units_trie s this ws _ (e ▸ hws) ht
      have ht2 : trieAt s2 this = some (root, buffer) := by
        rw [trieAt_of_getElem _ _ _ (hf2 this hthisw (Nat.ne_of_lt hthis)),
          trieAt_append _ _ _ hthis, ht]
      obtain ⟨hl3, hu3, hf3⟩ := pushMatched_frame _ _ _ _ _ hp
      have hws3 : ws3 = ws2 := Option.some.inj ((hsh.symm.trans (hu3 words)).trans hu2)
      subst hws3
      -- the `Trie` instance after the push
      have ht3 : trieAt s3 this = some (root, buffer) := by
        by_cases hres : res
        · have hb : this ≠ buffer := by
            intro e
            unfold pushMatched at hp
            simp only [hres, if_true, ht2] at hp
            cases ho : stringsAt s2 buffer with
            | none => simp [ho] at hp
            | some out => exact kind_strings_trie s2 this out _ (e ▸ ho) ht2
          rw [trieAt_of_getElem _ _ _ (hf3 root buffer ht2 this hb), ht2]
        · unfold pushMatched at hp
          simp only [hres, Bool.false_eq_true, if_false, Option.some.injEq] at hp
          rw [← hp, ht2]
      have ht4 : trieAt (s3.set words (.units ws3.tail)) this = some (root, buffer) := by
        rw [trieAt_of_getElem _ _ _ (List.getElem?_set_ne (Ne.symm hthisw)), ht3]
      have hu4 : unitsAt (s3.set words (.units ws3.tail)) words = some ws3.tail :=
        unitsAt_set_units _ _ _ _ hsh
      obtain ⟨i1, i2, i3⟩ := ih ws3.tail.length (by simp only [List.length_tail]; omega)
        _ _ hrec hu4 ht4 rfl
      simp only [List.length_set, hl3, hl2, List.length_append, List.length_singleton] at i1 i3
      refine ⟨by omega, i2, fun r hr hrw hrb => ?_⟩
      rw [i3 r (by omega) hrw hrb, List.getElem?_set_ne (Ne.symm hrw),
        hf3 root buffer ht2 r hrb, hf2 r hrw (Nat.ne_of_lt hr),
        List.getElem?_append_left hr]
    · rw [heap_matchLoop_done frames s this words ws hws hpos] at h
      have : s = s9 := Option.some.inj h
      subst this
      exact ⟨le_refl _, ht, fun _ _ _ _ => rfl⟩

theorem Repr.keep (s s2 : Store) (r : Nat) (n : TireMatching.Node) (h : Repr s r n)
    (hk : KeepsNodes s s2) : Repr s2 r n := by
  induction h with
  | mk r depth next props n h1 h2 h3 h4 _ ih =>
    exact Repr.mk r depth next props n (hk.1 _ _ _ h1) (hk.2 _ _ h2) h3 h4 ih

theorem keepsNodes_set_units (s : Store) (r : Nat) (old : List Char) (o : Obj)
    (h : unitsAt s r = some old) : KeepsNodes s (s.set r o) := by
  constructor
  · intro r2 depth next h2
    by_cases e : r2 = r
    · subst e
      simp [unitsAt, h2] at h
    · rw [List.getElem?_set_ne (Ne.symm e), h2]
  · intro r2 props h2
    by_cases e : r2 = r
    · subst e
      simp [unitsAt, h2] at h
    · rw [List.getElem?_set_ne (Ne.symm e), h2]

theorem keepsNodes_append (s : Store) (o : Obj) : KeepsNodes s (s ++ [o]) := by
  constructor
  · intro r depth next h
    have hlt : r < s.length := by
      by_contra hge
      simp [List.getElem?_eq_none (Nat.le_of_not_lt hge)] at h
    rw [List.getElem?_append_left hlt, h]
  · intro r props h
    have hlt : r < s.length := by
      by_contra hge
      simp [List.getElem?_eq_none (Nat.le_of_not_lt hge)] at h
    rw [List.getElem?_append_left hlt, h]

theorem keepsNodes_trans (s s2 s3 : Store) (h1 : KeepsNodes s s2) (h2 : KeepsNodes s2 s3) :
    KeepsNodes s s3 :=
  ⟨fun r d nx h => h2.1 _ _ _ (h1.1 _ _ _ h), fun r p h => h2.2 _ _ (h1.2 _ _ h)⟩

theorem childAt_repr (s : Store) (node : Nat) (n : TireMatching.Node) (h : Repr s node n)
    (c : Char) :
    ∃ found, childAt s node (some c) = some found ∧
      found.isSome = (n.next c).isSome ∧
      ∀ r2 n2, found = some r2 → n.next c = some n2 → Repr s r2 n2 := by
  cases h with
  | mk r depth next props n h1 h2 h3 h4 h5 =>
    refine ⟨props c, ?_, h4 c, fun r2 n2 e1 e2 => h5 c r2 n2 e1 e2⟩
    simp [childAt, nodeAt, propsAt, h1, h2]

theorem childAt_repr_undefined (s : Store) (node : Nat) (n : TireMatching.Node)
    (h : Repr s node n) : childAt s node none = some none := by
  cases h with
  | mk r depth next props n h1 h2 h3 h4 h5 =>
    simp [childAt, nodeAt, propsAt, h1, h2]

/-- On a store that holds the trie `n` at `node`, with enough room on the stack, `query`
returns the boolean of the `query` on values and leaves in the two arrays what that
`query` leaves in them; nodes and `next` objects are as before. -/
theorem heap_query_repr (frames : Nat) (s : Store) (node words matched : Nat)
    (n : TireMatching.Node) (ws ms : List Char) (hr : Repr s node n)
    (hw : unitsAt s words = some ws) (hm : unitsAt s matched = some ms)
    (hne : words ≠ matched) (hcalls : TireMatching.queryCalls n ws ≤ frames) :
    ∃ s2, query frames s node words matched = some ((TireMatching.query n ws ms).1, s2) ∧
      unitsAt s2 words = some (TireMatching.query n ws ms).2.1 ∧
      unitsAt s2 matched = some (TireMatching.query n ws ms).2.2 ∧
      KeepsNodes s s2 := by
  induction ws generalizing frames s node n ms with
  | nil =>
    obtain ⟨f, rfl⟩ : ∃ f, frames = f + 1 :=
      ⟨frames - 1, by simp [TireMatching.queryCalls] at hcalls; omega⟩
    have hk1 := keepsNodes_set_units s words [] (Obj.units []) hw
    have hr1 := Repr.keep _ _ _ _ hr hk1
    have hm1 : unitsAt (s.set words (Obj.units [])) matched = some ms := by
      rw [unitsAt_set_ne _ _ _ _ (Ne.symm hne), hm]
    have hk2 := keepsNodes_set_units _ matched ms (Obj.units []) hm1
    refine ⟨(s.set words (Obj.units [])).set matched (Obj.units []), ?_, ?_, ?_,
      keepsNodes_trans _ _ _ hk1 hk2⟩
    · rw [query_succ]
      simp only [hw, List.head?_nil, List.tail_nil, childAt_repr_undefined _ _ _ hr1,
        hm1, TireMatching.query]
    · rw [unitsAt_set_ne _ _ _ _ hne, unitsAt_set_units _ _ _ _ hw]
      rfl
    · rw [unitsAt_set_units _ _ _ _ hm1]
      rfl
  | cons c rest ih =>
    obtain ⟨f, rfl⟩ : ∃ f, frames = f + 1 :=
      ⟨frames - 1, by have := TireMatching.queryCalls_pos n (c :: rest); omega⟩
    have hk1 := keepsNodes_set_units s words (c :: rest) (Obj.units rest) hw
    have hr1 := Repr.keep _ _ _ _ hr hk1
    have hw1 : unitsAt (s.set words (Obj.units rest)) words = some rest :=
      unitsAt_set_units _ _ _ _ hw
    have hm1 : unitsAt (s.set words (Obj.units rest)) matched = some ms := by
      rw [unitsAt_set_ne _ _ _ _ (Ne.symm hne), hm]
    obtain ⟨found, hf1, hf2, hf3⟩ := childAt_repr _ _ _ hr1 c
    rw [query_succ]
    simp only [hw, List.head?_cons, List.tail_cons, hf1, TireMatching.query]
    cases hn : n.next c with
    | none =>
      rw [hn] at hf2
      have hfound : found = none := by
        cases found with
        | none => rfl
        | some x => simp at hf2
      subst hfound
      have hk2 := keepsNodes_set_units _ matched ms (Obj.units []) hm1
      refine ⟨(s.set words (Obj.units rest)).set matched (Obj.units []), ?_, ?_, ?_,
        keepsNodes_trans _ _ _ hk1 hk2⟩
      · simp only [hm1]
      · rw [unitsAt_set_ne _ _ _ _ hne, hw1]
      · rw [unitsAt_set_units _ _ _ _ hm1]
    | some child =>
      rw [hn] at hf2
      obtain ⟨r2, rfl⟩ : ∃ r2, found = some r2 := by
        cases found with
        | none => simp at hf2
        | some x => exact ⟨x, rfl⟩
      have hrc := hf3 r2 child rfl hn
      have hk2 := keepsNodes_set_units _ matched ms (Obj.units (ms ++ [c])) hm1
      have hrc2 := Repr.keep _ _ _ _ hrc hk2
      have hw2 : unitsAt ((s.set words (Obj.units rest)).set matched (Obj.units (ms ++ [c])))
          words = some rest := by
        rw [unitsAt_set_ne _ _ _ _ hne, hw1]
      have hm2 : unitsAt ((s.set words (Obj.units rest)).set matched (Obj.units (ms ++ [c])))
          matched = some (ms ++ [c]) := unitsAt_set_units _ _ _ _ hm1
      obtain ⟨term, ht1, ht2, -⟩ := childAt_repr _ _ _ hrc2 sentinel
      simp only [hm1, Option.toList_some, ht1]
      by_cases hterm : (child.next sentinel).isSome
      · rw [hterm] at ht2
        simp only [ht2, hterm, if_true]
        exact ⟨_, rfl, hw2, hm2, keepsNodes_trans _ _ _ hk1 hk2⟩
      · have ht3 : term.isSome = false := by
          rw [ht2]
          simpa using hterm
        simp only [ht3, hterm, Bool.false_eq_true, if_false]
        have hc2 : TireMatching.queryCalls child rest ≤ f := by
          simp only [TireMatching.queryCalls, hn, hterm, Bool.false_eq_true, if_false] at hcalls
          omega
        obtain ⟨s3, h1, h2, h3, h4⟩ := ih f _ r2 child (ms ++ [c]) hrc2 hw2 hm2 hc2
        exact ⟨s3, h1, h2, h3, keepsNodes_trans _ _ _ (keepsNodes_trans _ _ _ hk1 hk2) h4⟩

theorem stringsAt_of_getElem (s s2 : Store) (r : Nat) (h : s2[r]? = s[r]?) :
    stringsAt s2 r = stringsAt s r := by
  simp only [stringsAt, h]

theorem stringsAt_set_strings (s : Store) (r : Nat) (old elems : List String)
    (h : stringsAt s r = some old) : stringsAt (s.set r (.strings elems)) r = some elems := by
  have hlt := stringsAt_lt _ _ _ h
  simp [stringsAt, List.getElem?_set_self hlt]

theorem kind_units_strings (s : Store) (r : Nat) (ws : List Char) (out : List String)
    (h1 : unitsAt s r = some ws) (h2 : stringsAt s r = some out) : False := by
  simp only [unitsAt, stringsAt] at h1 h2
  split at h1 <;> simp_all

theorem keepsNodes_set_strings (s : Store) (r : Nat) (old : List String) (o : Obj)
    (h : stringsAt s r = some old) : KeepsNodes s (s.set r o) := by
  constructor
  · intro r2 depth next h2
    by_cases e : r2 = r
    · subst e
      simp [stringsAt, h2] at h
    · rw [List.getElem?_set_ne (Ne.symm e), h2]
  · intro r2 props h2
    by_cases e : r2 = r
    · subst e
      simp [stringsAt, h2] at h
    · rw [List.getElem?_set_ne (Ne.symm e), h2]

theorem keepsNodes_refl (s : Store) : KeepsNodes s s :=
  ⟨fun _ _ _ h => h, fun _ _ h => h⟩

/-- Without room on the stack for the nested calls that `query` on values makes, the
`query` on the store raises. -/
theorem heap_query_raises (frames : Nat) (s : Store) (node words matched : Nat)
    (n : TireMatching.Node) (ws ms : List Char) (hr : Repr s node n)
    (hw : unitsAt s words = some ws) (hm : unitsAt s matched = some ms)
    (hne : words ≠ matched) (hcalls : frames < TireMatching.queryCalls n ws) :
    query frames s node words matched = none := by
  induction frames generalizing s node n ws ms with
  | zero => rfl
  | succ f ih =>
    cases ws with
    | nil => simp [TireMatching.queryCalls] at hcalls
    | cons c rest =>
      have hk1 := keepsNodes_set_units s words (c :: rest) (Obj.units rest) hw
      have hr1 := Repr.keep _ _ _ _ hr hk1
      have hw1 : unitsAt (s.set words (Obj.units rest)) words = some rest :=
        unitsAt_set_units _ _ _ _ hw
      have hm1 : unitsAt (s.set words (Obj.units rest)) matched = some ms := by
        rw [unitsAt_set_ne _ _ _ _ (Ne.symm hne), hm]
      obtain ⟨found, hf1, hf2, hf3⟩ := childAt_repr _ _ _ hr1 c
      rw [query_succ]
      simp only [hw, List.head?_cons, List.tail_cons, hf1]
      cases hn : n.next c with
      | none => simp [TireMatching.queryCalls, hn] at hcalls
      | some child =>
        rw [hn] at hf2
        obtain ⟨r2, rfl⟩ : ∃ r2, found = some r2 := by
          cases found with
          | none => simp at hf2
          | some x => exact ⟨x, rfl⟩
        have hrc := hf3 r2 child rfl hn
        have hk2 := keepsNodes_set_units _ matched ms (Obj.units (ms ++ [c])) hm1
        have hrc2 := Repr.keep _ _ _ _ hrc hk2
        have hw2 : unitsAt ((s.set words (Obj.units rest)).set matched
            (Obj.units (ms ++ [c]))) words = some rest := by
          rw [unitsAt_set_ne _ _ _ _ hne, hw1]
        have hm2 : unitsAt ((s.set words (Obj.units rest)).set matched
            (Obj.units (ms ++ [c]))) matched = some (ms ++ [c]) :=
          unitsAt_set_units _ _ _ _ hm1
        obtain ⟨term, ht1, ht2, -⟩ := childAt_repr _ _ _ hrc2 sentinel
        simp only [hm1, Option.toList_some, ht1]
        by_cases hterm : (child.next sentinel).isSome
        · simp [TireMatching.queryCalls, hn, hterm] at hcalls
        · have ht3 : term.isSome = false := by
            rw [ht2]
            simpa using hterm
          simp only [ht3, Bool.false_eq_true, if_false]
          have hc2 : f < TireMatching.queryCalls child rest := by
            simp only [TireMatching.queryCalls, hn, hterm, Bool.false_eq_true, if_false]
              at hcalls
            omega
          exact ih _ r2 child rest (ms ++ [c]) hrc2 hw2 hm2 hc2

/-- A call of `query` that raises makes the loop raise. -/
theorem heap_matchLoop_raise (frames : Nat) (s : Store) (this words : Nat)
    (ws : List Char) (root buffer : Nat)
    (hws : unitsAt s words = some ws) (hpos : ws.length > 0)
    (ht : trieAt (s ++ [Obj.units []]) this = some (root, buffer))
    (hq : query frames (s ++ [Obj.units []]) root words s.length = none) :
    matchLoop frames s this words = none := by
  cases h : matchLoop frames s this words with
  | none => rfl
  | some s9 =>
    obtain ⟨root1, buffer1, res, s2, s3, ws3, ht1, hq1, -, -, -⟩ :=
      heap_matchLoop_unfold frames s this words s9 ws hws hpos h
    rw [ht] at ht1
    simp only [Option.some.injEq, Prod.mk.injEq] at ht1
    obtain ⟨rfl, rfl⟩ := ht1
    rw [hq] at hq1
    exact absurd hq1 (by simp)

/-- On a store that holds the trie `n` at `this.root`, the loop of `match` does what the
loop on values does on a stack of the same depth: it raises when that one raises, and
otherwise ends and leaves in `this.matched` the list of that loop; nodes and `next`
objects are as before. -/
theorem heap_matchLoop_sim (frames : Nat) (s : Store) (this words root buffer : Nat)
    (n : TireMatching.Node) (ws : List Char) (out : List String)
    (hr : Repr s root n) (ht : trieAt s this = some (root, buffer))
    (hout : stringsAt s buffer = some out) (hws : unitsAt s words = some ws) :
    (∀ m, TireMatching.matchLoopFrames frames n ws out = some m →
      ∃ s9, matchLoop frames s this words = some s9 ∧
        stringsAt s9 buffer = some m ∧ KeepsNodes s s9) ∧
    (TireMatching.matchLoopFrames frames n ws out = none →
      matchLoop frames s this words = none) := by
  generalize hn : ws.length = k
  induction k using Nat.strong_induction_on generalizing s ws out with
  | _ k ih =>
    subst hn
    by_cases hpos : ws.length > 0
    · have hthis := trieAt_lt _ _ _ ht
      have hwlt := unitsAt_lt _ _ _ hws
      have hblt := stringsAt_lt _ _ _ hout
      have hne : words ≠ s.length := Nat.ne_of_lt hwlt
      have hthisw : this ≠ words := fun e => kind_units_trie s this ws _ (e ▸ hws) ht
      have hbw : buffer ≠ words := fun e => kind_units_strings s buffer ws out (e ▸ hws) hout
      have hbthis : buffer ≠ this := by
        intro e
        rw [e] at hout
        exact kind_strings_trie s this out _ hout ht
      -- the store with the new array `matched`
      have hk1 := keepsNodes_append s (Obj.units [])
      have hr1 := Repr.keep _ _ _ _ hr hk1
      have hw1 : unitsAt (s ++ [Obj.units []]) words = some ws := by
        rw [unitsAt_append _ _ _ hwlt, hws]
      have hm1 : unitsAt (s ++ [Obj.units []]) s.length = some [] := by
        simp [unitsAt]
      have ht1 : trieAt (s ++ [Obj.units []]) this = some (root, buffer) := by
        rw [trieAt_append _ _ _ hthis, ht]
      by_cases hc : TireMatching.queryCalls n ws ≤ frames
      · -- the call of `query`
        obtain ⟨s2, hq, hw2, hm2, hk2⟩ := heap_query_repr frames _ root words s.length n ws []
          hr1 hw1 hm1 hne hc
        obtain ⟨hl2, hf2⟩ := heap_query_frame _ _ _ _ _ _ _ hq
        have ht2 : trieAt s2 this = some (root, buffer) := by
          rw [trieAt_of_getElem _ _ _ (hf2 this hthisw (Nat.ne_of_lt hthis)), ht1]
        have hout2 : stringsAt s2 buffer = some out := by
          rw [stringsAt_of_getElem _ _ _ (hf2 buffer hbw (Nat.ne_of_lt hblt))]
          simp only [stringsAt, List.getElem?_append_left hblt]
          exact hout
        -- the push
        obtain ⟨s3, hp, hout3, hw3, ht3, hk3⟩ : ∃ s3,
            pushMatched (TireMatching.query n ws []).1 s2 this s.length = some s3 ∧
            stringsAt s3 buffer = some (if (TireMatching.query n ws []).1
              then out ++ [String.mk (TireMatching.query n ws []).2.2] else out) ∧
            unitsAt s3 words = some (TireMatching.query n ws []).2.1 ∧
            trieAt s3 this = some (root, buffer) ∧ KeepsNodes s2 s3 := by
          by_cases hres : (TireMatching.query n ws []).1
          · refine ⟨s2.set buffer (Obj.strings
              (out ++ [String.mk (TireMatching.query n ws []).2.2])), ?_, ?_, ?_, ?_, ?_⟩
            · simp only [pushMatched, hres, if_true, ht2, hout2, hm2]
            · simp only [hres, if_true]
              exact stringsAt_set_strings _ _ _ _ hout2
            · rw [unitsAt_set_ne _ _ _ _ (Ne.symm hbw), hw2]
            · rw [trieAt_of_getElem _ _ _ (List.getElem?_set_ne hbthis), ht2]
            · exact keepsNodes_set_strings _ _ _ _ hout2
          · refine ⟨s2, ?_, ?_, hw2, ht2, keepsNodes_refl _⟩
            · simp only [pushMatched, hres, Bool.false_eq_true, if_false]
            · simp only [hres, Bool.false_eq_true, if_false]
              exact hout2
        -- the shift and the next turn
        have hstep := heap_matchLoop_step frames s this words ws root buffer _ s2 s3 _
          hws hpos ht1 hq hp hw3
        have hk4 := keepsNodes_set_units s3 words _
          (Obj.units (TireMatching.query n ws []).2.1.tail) hw3
        have hk : KeepsNodes s (s3.set words (Obj.units (TireMatching.query n ws []).2.1.tail)) :=
          keepsNodes_trans _ _ _
            (keepsNodes_trans _ _ _ (keepsNodes_trans _ _ _ hk1 hk2) hk3) hk4
        have hlen := TireMatching.query_length_lt n ws [] hpos
        obtain ⟨i1, i2⟩ := ih (TireMatching.query n ws []).2.1.tail.length
          (by simp only [List.length_tail]; omega)
          (s3.set words (Obj.units (TireMatching.query n ws []).2.1.tail))
          (TireMatching.query n ws []).2.1.tail
          (if (TireMatching.query n ws []).1
            then out ++ [String.mk (TireMatching.query n ws []).2.2] else out)
          (Repr.keep _ _ _ _ hr hk)
          (by rw [trieAt_of_getElem _ _ _ (List.getElem?_set_ne (Ne.symm hthisw)), ht3])
          (by rw [stringsAt_of_getElem _ _ _ (List.getElem?_set_ne (Ne.symm hbw)), hout3])
          (unitsAt_set_units _ _ _ _ hw3)
          rfl
        rw [TireMatching.matchLoopFrames_step frames n ws out hpos
          (TireMatching.queryFrames_of_calls_le frames n ws [] hc), hstep, List.drop_one]
        refine ⟨fun m hm => ?_, i2⟩
        obtain ⟨s9, a, b, c⟩ := i1 m hm
        exact ⟨s9, a, b, keepsNodes_trans _ _ _ hk c⟩
      · have hq := heap_query_raises frames _ root words s.length n ws [] hr1 hw1 hm1 hne
          (by omega)
        have hraise := heap_matchLoop_raise frames s this words ws root buffer hws hpos ht1 hq
        refine ⟨fun m hm => ?_, fun _ => hraise⟩
        rw [TireMatching.matchLoopFrames_raises frames n ws out (by omega) hpos] at hm
        exact absurd hm (by simp)
    · have hv : TireMatching.matchLoopFrames frames n ws out = some out := by
        rw [TireMatching.matchLoopFrames]
        simp only [hpos, dite_false]
      rw [hv]
      refine ⟨fun m hm => ?_, fun h => absurd h (by simp)⟩
      have : out = m := Option.some.inj hm
      subst this
      exact ⟨s, heap_matchLoop_done frames s this words ws hws hpos, hout, keepsNodes_refl _⟩

/-- What `match` writes, whenever it returns: every object allocated before the call is
left as it was, the `Trie` instance apart; the instance keeps its `root` and refers in
`matched` to the array returned, which is a new one. -/
theorem heap_match_frame (frames : Nat) (s : Store) (this : Nat) (text : String)
    (result : Nat) (s9 : Store) (h : Trie.match frames s this text = some (result, s9)) :
    ∃ root old, trieAt s this = some (root, old) ∧ trieAt s9 this = some (root, result) ∧
      result = s.length ∧ s.length ≤ s9.length ∧
      ∀ r, r < s.length → r ≠ this → s9[r]? = s[r]? := by
  unfold Trie.match at h
  cases ht : trieAt s this with
  | none => simp [ht] at h
  | some v =>
    obtain ⟨root, old⟩ := v
    rw [ht] at h
    dsimp only at h
    have hthis := trieAt_lt _ _ _ ht
    split at h
    · exact absurd h (by simp)
    · rename_i s3 hl
      have hlen1 : ((s ++ [Obj.strings []]).set this (Obj.trie root s.length)).length
          = s.length + 1 := by simp
      have ht2 : trieAt ((s ++ [Obj.strings []]).set this (Obj.trie root s.length)
          ++ [Obj.units text.toList]) this = some (root, s.length) := by
        rw [trieAt_append _ _ _ (by rw [hlen1]; omega)]
        simp [trieAt, List.getElem?_set_self (show this < (s ++ [Obj.strings []]).length by
          simp; omega)]
      have hw2 : unitsAt ((s ++ [Obj.strings []]).set this (Obj.trie root s.length)
          ++ [Obj.units text.toList])
          ((s ++ [Obj.strings []]).set this (Obj.trie root s.length)).length
          = some text.toList := by
        simp [unitsAt]
      obtain ⟨f1, f2, f3⟩ := heap_matchLoop_frame _ _ _ _ _ _ _ _ hl hw2 ht2
      rw [f2] at h
      simp only [Option.some.injEq, Prod.mk.injEq] at h
      obtain ⟨rfl, rfl⟩ := h
      refine ⟨root, old, rfl, f2, rfl, ?_, fun r hr hrt => ?_⟩
      · simp only [List.length_append, List.length_set, List.length_singleton] at f1
        omega
      · rw [f3 r (by simp; omega) (by rw [hlen1]; omega) (by omega),
          List.getElem?_append_left (by rw [hlen1]; omega),
          List.getElem?_set_ne (Ne.symm hrt), List.getElem?_append_left hr]

theorem keepsNodes_set_trie (s : Store) (r : Nat) (v : Nat × Nat) (o : Obj)
    (h : trieAt s r = some v) : KeepsNodes s (s.set r o) := by
  constructor
  · intro r2 depth next h2
    by_cases e : r2 = r
    · subst e
      simp [trieAt, h2] at h
    · rw [List.getElem?_set_ne (Ne.symm e), h2]
  · intro r2 props h2
    by_cases e : r2 = r
    · subst e
      simp [trieAt, h2] at h
    · rw [List.getElem?_set_ne (Ne.symm e), h2]

/-- On a store that holds the trie `n` at `this.root`, `match` does what the `match` on
values does on a stack of the same depth: it raises when that one raises, and otherwise
returns the list of that `match`, in a new array, and the store holds the trie `n` as
before. -/
theorem heap_match_sim (frames : Nat) (s : Store) (this root old : Nat)
    (n : TireMatching.Node) (text : String)
    (ht : trieAt s this = some (root, old)) (hr : Repr s root n) :
    (∀ m, TireMatching.matchLoopFrames frames n text.toList [] = some m →
      ∃ s9, Trie.match frames s this text = some (s.length, s9) ∧
        stringsAt s9 s.length = some m ∧
        Repr s9 root n ∧ trieAt s9 this = some (root, s.length)) ∧
    (TireMatching.matchLoopFrames frames n text.toList [] = none →
      Trie.match frames s this text = none) := by
  have hthis := trieAt_lt _ _ _ ht
  have hlen1 : ((s ++ [Obj.strings []]).set this (Obj.trie root s.length)).length
      = s.length + 1 := by simp
  have ht1 : trieAt (s ++ [Obj.strings []]) this = some (root, old) := by
    rw [trieAt_append _ _ _ hthis, ht]
  have ht2 : trieAt ((s ++ [Obj.strings []]).set this (Obj.trie root s.length)
      ++ [Obj.units text.toList]) this = some (root, s.length) := by
    rw [trieAt_append _ _ _ (by rw [hlen1]; omega)]
    simp [trieAt, List.getElem?_set_self (show this < (s ++ [Obj.strings []]).length by
      simp; omega)]
  have hw2 : unitsAt ((s ++ [Obj.strings []]).set this (Obj.trie root s.length)
      ++ [Obj.units text.toList])
      ((s ++ [Obj.strings []]).set this (Obj.trie root s.length)).length
      = some text.toList := by
    simp [unitsAt]
  have hout2 : stringsAt ((s ++ [Obj.strings []]).set this (Obj.trie root s.length)
      ++ [Obj.units text.toList]) s.length = some [] := by
    simp only [stringsAt]
    rw [List.getElem?_append_left (by rw [hlen1]; omega),
      List.getElem?_set_ne (Nat.ne_of_lt hthis)]
    simp
  have hk : KeepsNodes s ((s ++ [Obj.strings []]).set this (Obj.trie root s.length)
      ++ [Obj.units text.toList]) :=
    keepsNodes_trans _ _ _ (keepsNodes_trans _ _ _ (keepsNodes_append s _)
      (keepsNodes_set_trie _ this _ _ ht1)) (keepsNodes_append _ _)
  obtain ⟨i1, i2⟩ := heap_matchLoop_sim frames _ this _ root s.length n text.toList []
    (Repr.keep _ _ _ _ hr hk) ht2 hout2 hw2
  constructor
  · intro m hm
    obtain ⟨s9, h1, h2, h3⟩ := i1 m hm
    obtain ⟨-, f2, -⟩ := heap_matchLoop_frame _ _ _ _ _ _ _ _ h1 hw2 ht2
    refine ⟨s9, ?_, h2, Repr.keep _ _ _ _ hr (keepsNodes_trans _ _ _ hk h3), f2⟩
    unfold Trie.match
    rw [ht]
    dsimp only
    rw [h1]
    dsimp only
    rw [f2]
  · intro hnone
    unfold Trie.match
    rw [ht]
    dsimp only
    rw [i2 hnone]

theorem owns_kind (s : Store) (r : Nat) (n : TireMatching.Node) (P : Nat → Prop)
    (h : Owns s r n P) : ∀ x, P x → IsNodeOrMap s x := by
  induction h with
  | mk r depth next props n F P h1 h2 h3 h4 h5 h6 h7 h8 h9 ih =>
    intro x hx
    rcases (h9 x).mp hx with rfl | rfl | ⟨c, hc⟩
    · exact Or.inl ⟨_, _, h1⟩
    · exact Or.inr ⟨_, h2⟩
    · cases hp : props c with
      | none => exact absurd hc (h6 c hp x)
      | some r2 =>
        have hn : (n.next c).isSome = true := by rw [← h4 c, hp]; rfl
        obtain ⟨n2, hn2⟩ := Option.isSome_iff_exists.mp hn
        exact ih c r2 n2 hp hn2 x hc

theorem owns_agree (s s2 : Store) (r : Nat) (n : TireMatching.Node) (P : Nat → Prop)
    (h : Owns s r n P) (hs : ∀ x, P x → s2[x]? = s[x]?) : Owns s2 r n P := by
  induction h with
  | mk r depth next props n F P h1 h2 h3 h4 h5 h6 h7 h8 h9 ih =>
    refine Owns.mk r depth next props n F P ?_ ?_ h3 h4 ?_ h6 h7 h8 h9
    · rw [hs r ((h9 r).mpr (Or.inl rfl)), h1]
    · rw [hs next ((h9 next).mpr (Or.inr (Or.inl rfl))), h2]
    · intro c r2 n2 e1 e2
      exact ih c r2 n2 e1 e2 (fun x hx => hs x ((h9 x).mpr (Or.inr (Or.inr ⟨c, hx⟩))))

theorem owns_repr (s : Store) (r : Nat) (n : TireMatching.Node) (P : Nat → Prop)
    (h : Owns s r n P) : Repr s r n := by
  induction h with
  | mk r depth next props n F P h1 h2 h3 h4 h5 h6 h7 h8 h9 ih =>
    exact Repr.mk r depth next props n h1 h2 h3 h4 ih

theorem isNodeOrMap_lt (s : Store) (x : Nat) (h : IsNodeOrMap s x) : x < s.length := by
  by_contra hge
  have := List.getElem?_eq_none (Nat.le_of_not_lt hge)
  rcases h with ⟨d, nx, h⟩ | ⟨p, h⟩ <;> simp [this] at h

theorem isNodeOrMap_ne_units (s : Store) (x w : Nat) (ws : List Char)
    (h : IsNodeOrMap s x) (hw : unitsAt s w = some ws) : x ≠ w := by
  rintro rfl
  rcases h with ⟨d, nx, h⟩ | ⟨p, h⟩ <;> simp [unitsAt, h] at hw

theorem heap_insert_owns (frames : Nat) (s : Store) (r w : Nat) (n : TireMatching.Node)
    (P : Nat → Prop) (ws : List Char)
    (ho : Owns s r n P) (hw : unitsAt s w = some ws) (hf : ws.length + 1 ≤ frames) :
    ∃ s2 P2, insert frames s r w = some s2 ∧ Owns s2 r (TireMatching.insert n ws) P2 ∧
      (∀ x, P2 x → P x ∨ s.length ≤ x) ∧ s.length ≤ s2.length ∧
      (∀ x, x < s.length → ¬ P x → x ≠ w → s2[x]? = s[x]?) := by
  induction ws generalizing frames s r n P with
  | nil =>
    obtain ⟨f, rfl⟩ : ∃ f, frames = f + 1 := ⟨frames - 1, by simp at hf; omega⟩
    refine ⟨s, P, ?_, ho, fun x h => Or.inl h, le_refl _, fun _ _ _ _ => rfl⟩
    simp only [insert, hw]
  | cons c rest ih =>
    obtain ⟨f, rfl⟩ : ∃ f, frames = f + 1 := ⟨frames - 1, by simp at hf; omega⟩
    have hf2 : rest.length + 1 ≤ f := by simp at hf; omega
    have hkind := owns_kind _ _ _ _ ho
    have hPw : ∀ x, P x → x ≠ w := fun x hx =>
      isNodeOrMap_ne_units s x w _ (hkind x hx) hw
    have hPlt : ∀ x, P x → x < s.length := fun x hx => isNodeOrMap_lt s x (hkind x hx)
    have hwlt := unitsAt_lt _ _ _ hw
    have ho1 : Owns (s.set w (Obj.units rest)) r n P :=
      owns_agree _ _ _ _ _ ho (fun x hx => List.getElem?_set_ne (Ne.symm (hPw x hx)))
    have hw1 : unitsAt (s.set w (Obj.units rest)) w = some rest :=
      unitsAt_set_units _ _ _ _ hw
    have hlen1 : (s.set w (Obj.units rest)).length = s.length := by simp
    cases ho1 with
    | mk r depth next props n F P h1 h2 h3 h4 h5 h6 h7 h8 h9 =>
      have hPr : P r := (h9 r).mpr (Or.inl rfl)
      have hPn : P next := (h9 next).mpr (Or.inr (Or.inl rfl))
      have hPF : ∀ c x, F c x → P x := fun c x hx => (h9 x).mpr (Or.inr (Or.inr ⟨c, hx⟩))
      simp only [insert, hw, nodeAt, propsAt, h1, h2]
      cases hp : props c with
      | some child =>
        have hn : (n.next c).isSome = true := by rw [← h4 c, hp]; rfl
        obtain ⟨nc, hnc⟩ := Option.isSome_iff_exists.mp hn
        obtain ⟨s2, Pc, i1, i2, i3, i4, i5⟩ :=
          ih f _ child nc (F c) (h5 c child nc hp hnc) hw1 hf2
        rw [hlen1] at i3 i4 i5
        simp only []
        refine ⟨s2, fun x => x = r ∨ x = next ∨ ∃ c2, Function.update F c Pc c2 x, i1, ?_,
          ?_, i4, ?_⟩
        · rw [TireMatching.insert_cons, hnc, h3]
          have hfr : ∀ x, P x → ¬ F c x → s2[x]? = (s.set w (Obj.units rest))[x]? :=
            fun x hx hnx => by
              rw [i5 x (hPlt x hx) hnx (hPw x hx)]
          refine Owns.mk r depth next props _ (Function.update F c Pc) _ ?_ ?_ rfl ?_ ?_ ?_ ?_
            ?_ (fun x => Iff.rfl)
          · rw [hfr r hPr (fun h => (h7 c r h).1 rfl), h1]
          · rw [hfr next hPn (fun h => (h7 c next h).2 rfl), h2]
          · intro c2
            by_cases e : c2 = c
            · subst e
              simp [hp]
            · simp [Function.update_noteq e, h4 c2]
          · intro c2 r2 n2 e1 e2
            by_cases e : c2 = c
            · subst e
              rw [hp] at e1
              simp only [Function.update_same, Option.some.injEq, Option.getD_some] at e1 e2
              subst e1 e2
              rw [Function.update_same]
              exact i2
            · simp only [ne_eq, e, not_false_eq_true, Function.update_noteq] at e2
              rw [Function.update_noteq e]
              refine owns_agree _ _ _ _ _ (h5 c2 r2 n2 e1 e2) (fun x hx => ?_)
              exact hfr x (hPF c2 x hx) (h8 c2 c x e hx)
          · intro c2 e1 x
            by_cases e : c2 = c
            · subst e
              rw [hp] at e1
              exact absurd e1 (by simp)
            · rw [Function.update_noteq e]
              exact h6 c2 e1 x
          · intro c2 x hx
            by_cases e : c2 = c
            · subst e
              rw [Function.update_same] at hx
              rcases i3 x hx with h | h
              · exact h7 c2 x h
              · exact ⟨fun e2 => by have := hPlt r hPr; omega,
                  fun e2 => by have := hPlt next hPn; omega⟩
            · rw [Function.update_noteq e] at hx
              exact h7 c2 x hx
          · intro c2 c3 x hne hx hx3
            by_cases e : c2 = c
            · subst e
              rw [Function.update_same] at hx
              rw [Function.update_noteq (Ne.symm hne)] at hx3
              rcases i3 x hx with h | h
              · exact h8 c2 c3 x hne h hx3
              · have := hPlt x (hPF c3 x hx3); omega
            · rw [Function.update_noteq e] at hx
              by_cases e3 : c3 = c
              · subst e3
                rw [Function.update_same] at hx3
                rcases i3 x hx3 with h | h
                · exact h8 c2 c3 x hne hx h
                · have := hPlt x (hPF c2 x hx); omega
              · rw [Function.update_noteq e3] at hx3
                exact h8 c2 c3 x hne hx hx3
        · intro x hx
          rcases hx with rfl | rfl | ⟨c2, hc2⟩
          · exact Or.inl hPr
          · exact Or.inl hPn
          · by_cases e : c2 = c
            · subst e
              rw [Function.update_same] at hc2
              rcases i3 x hc2 with h | h
              · exact Or.inl (hPF c2 x h)
              · exact Or.inr h
            · rw [Function.update_noteq e] at hc2
              exact Or.inl (hPF c2 x hc2)
        · intro x hx hnP hxw
          rw [i5 x hx (fun h => hnP (hPF c x h)) hxw, List.getElem?_set_ne (Ne.symm hxw)]
      | none =>
        simp only []
        have hnn : n.next c = none := by
          have := h4 c
          rw [hp] at this
          cases hx : n.next c with
          | none => rfl
          | some v => rw [hx] at this; simp at this
        have hrlt := hPlt r hPr
        have hnlt := hPlt next hPn
        have hrn : r ≠ next := by
          intro e
          rw [e, h2] at h1
          simp at h1
        have hnw : next ≠ w := hPw next hPn
        obtain ⟨s4, hs4⟩ : ∃ s4 : Store, s4 =
            (((s.set w (Obj.units rest)) ++ [Obj.map (fun _ => none)]) ++
              [Obj.node (depth + 1) (s.set w (Obj.units rest)).length]).set next
              (Obj.map (Function.update props c
                (some ((s.set w (Obj.units rest)) ++ [Obj.map (fun _ => none)]).length))) :=
          ⟨_, rfl⟩
        rw [← hs4]
        have hb : ((s.set w (Obj.units rest)) ++ [Obj.map (fun _ => none)]).length
            = s.length + 1 := by simp
        rw [hb, hlen1] at hs4
        rw [hb]
        have hlen4 : s4.length = s.length + 2 := by rw [hs4]; simp
        have hold : ∀ x, x < s.length → x ≠ next →
            s4[x]? = (s.set w (Obj.units rest))[x]? := by
          intro x hx hxn
          rw [hs4, List.getElem?_set_ne (Ne.symm hxn),
            List.getElem?_append_left (by simp; omega),
            List.getElem?_append_left (by simp; omega)]
        have hnext4 : s4[next]? = some (Obj.map (Function.update props c
            (some (s.length + 1)))) := by
          rw [hs4, List.getElem?_set_self (by simp; omega)]
        have ha4 : s4[s.length]? = some (Obj.map (fun _ => none)) := by
          rw [hs4, List.getElem?_set_ne (by omega),
            List.getElem?_append_left (by simp), ← hlen1, List.getElem?_concat_length]
        have hb4 : s4[s.length + 1]? = some (Obj.node (depth + 1) s.length) := by
          rw [hs4, List.getElem?_set_ne (by omega)]
          have : (s.set w (Obj.units rest) ++ [Obj.map (fun _ => none)]).length
              = s.length + 1 := hb
          rw [← this, List.getElem?_concat_length]
        have hw4 : unitsAt s4 w = some rest := by
          simp only [unitsAt, hold w hwlt (Ne.symm hnw)]
          exact hw1
        have hown4 : Owns s4 (s.length + 1) (TireMatching.Node.fresh (n.depth + 1))
            (fun x => x = s.length + 1 ∨ x = s.length ∨ ∃ _ : Char, False) := by
          rw [h3]
          exact Owns.mk (s.length + 1) (depth + 1) s.length (fun _ => none) _
            (fun _ _ => False) _ hb4 ha4 rfl (fun _ => rfl)
            (fun c r2 n2 e _ => absurd e (by simp)) (fun _ _ _ h => h)
            (fun _ _ h => absurd h id) (fun _ _ _ _ h _ => h) (fun _ => Iff.rfl)
        obtain ⟨s5, Pb, j1, j2, j3, j4, j5⟩ :=
          ih f s4 (s.length + 1) (TireMatching.Node.fresh (n.depth + 1)) _ hown4 hw4 hf2
        have hPbge : ∀ x, Pb x → s.length ≤ x := by
          intro x hx
          rcases j3 x hx with (h | h | ⟨_, h⟩) | h
          · omega
          · omega
          · exact absurd h id
          · omega
        have hfr : ∀ x, x < s.length → x ≠ w → s5[x]? = s4[x]? := by
          intro x hx hxw
          refine j5 x (by omega) ?_ hxw
          rintro (h | h | ⟨_, h⟩)
          · omega
          · omega
          · exact h
        refine ⟨s5, fun x => x = r ∨ x = next ∨ ∃ c2, Function.update F c Pb c2 x, j1, ?_,
          ?_, by omega, ?_⟩
        · rw [TireMatching.insert_cons, hnn, h3]
          refine Owns.mk r depth next (Function.update props c (some (s.length + 1))) _
            (Function.update F c Pb) _ ?_ ?_ rfl ?_ ?_ ?_ ?_ ?_ (fun x => Iff.rfl)
          · rw [hfr r hrlt (hPw r hPr), hold r hrlt hrn, h1]
          · rw [hfr next hnlt hnw, hnext4]
          · intro c2
            by_cases e : c2 = c
            · subst e
              simp
            · simp [Function.update_noteq e, h4 c2]
          · intro c2 r2 n2 e1 e2
            by_cases e : c2 = c
            · subst e
              simp only [Function.update_same, Option.some.injEq, Option.getD_none] at e1 e2
              subst e1 e2
              rw [Function.update_same, ← h3]
              exact j2
            · simp only [ne_eq, e, not_false_eq_true, Function.update_noteq] at e1 e2
              rw [Function.update_noteq e]
              refine owns_agree _ _ _ _ _ (h5 c2 r2 n2 e1 e2) (fun x hx => ?_)
              have hxP := hPF c2 x hx
              rw [hfr x (hPlt x hxP) (hPw x hxP), hold x (hPlt x hxP) (h7 c2 x hx).2]
          · intro c2 e1 x
            by_cases e : c2 = c
            · subst e
              simp at e1
            · simp only [ne_eq, e, not_false_eq_true, Function.update_noteq] at e1
              rw [Function.update_noteq e]
              exact h6 c2 e1 x
          · intro c2 x hx
            by_cases e : c2 = c
            · subst e
              rw [Function.update_same] at hx
              have := hPbge x hx
              exact ⟨by omega, by omega⟩
            · rw [Function.update_noteq e] at hx
              exact h7 c2 x hx
          · intro c2 c3 x hne hx hx3
            by_cases e : c2 = c
            · subst e
              rw [Function.update_same] at hx
              rw [Function.update_noteq (Ne.symm hne)] at hx3
              have := hPbge x hx
              have := hPlt x (hPF c3 x hx3)
              omega
            · rw [Function.update_noteq e] at hx
              by_cases e3 : c3 = c
              · subst e3
                rw [Function.update_same] at hx3
                have := hPbge x hx3
                have := hPlt x (hPF c2 x hx)
                omega
              · rw [Function.update_noteq e3] at hx3
                exact h8 c2 c3 x hne hx hx3
        · intro x hx
          rcases hx with rfl | rfl | ⟨c2, hc2⟩
          · exact Or.inl hPr
          · exact Or.inl hPn
          · by_cases e : c2 = c
            · subst e
              rw [Function.update_same] at hc2
              exact Or.inr (hPbge x hc2)
            · rw [Function.update_noteq e] at hc2
              exact Or.inl (hPF c2 x hc2)
        · intro x hx hnP hxw
          have hxn : x ≠ next := fun e => hnP (e ▸ hPn)
          rw [hfr x hx hxw, hold x hx hxn, List.getElem?_set_ne (Ne.symm hxw)]

theorem heap_append_owns (frames : Nat) (s : Store) (this root buffer : Nat)
    (n : TireMatching.Node) (P : Nat → Prop) (k : String)
    (ho : Owns s root n P) (ht : trieAt s this = some (root, buffer))
    (hf : k.length + 2 ≤ frames) :
    ∃ s2 P2, Trie.append frames s this k = some s2 ∧
      Owns s2 root (TireMatching.insert n (TireMatching.entry k)) P2 ∧
      trieAt s2 this = some (root, buffer) := by
  have hkind := owns_kind _ _ _ _ ho
  have hPlt : ∀ x, P x → x < s.length := fun x hx => isNodeOrMap_lt s x (hkind x hx)
  have hthis := trieAt_lt _ _ _ ht
  have ho1 : Owns (s ++ [Obj.units (k.toList ++ [sentinel])]) root n P :=
    owns_agree _ _ _ _ _ ho (fun x hx => List.getElem?_append_left (hPlt x hx))
  have hw1 : unitsAt (s ++ [Obj.units (k.toList ++ [sentinel])]) s.length
      = some (k.toList ++ [sentinel]) := by
    simp [unitsAt]
  have hlen : (k.toList ++ [sentinel]).length + 1 ≤ frames := by
    have h4 : k.toList.length = k.length := rfl
    simp only [List.length_append, List.length_singleton]
    omega
  obtain ⟨s2, P2, i1, i2, -, -, i5⟩ :=
    heap_insert_owns frames _ root s.length n P _ ho1 hw1 hlen
  refine ⟨s2, P2, ?_, i2, ?_⟩
  · simp only [Trie.append, ht]
    exact i1
  · have hnP : ¬ P this := by
      intro hP
      rcases hkind this hP with ⟨d, nx, h⟩ | ⟨p, h⟩ <;> simp [trieAt, h] at ht
    rw [trieAt_of_getElem _ _ _ (i5 this (by simp; omega) hnP (Nat.ne_of_lt hthis)),
      trieAt_append _ _ _ hthis, ht]

theorem heap_appendAll_owns (frames : Nat) (s : Store) (this root buffer : Nat)
    (n : TireMatching.Node) (P : Nat → Prop) (ks : List String)
    (ho : Owns s root n P) (ht : trieAt s this = some (root, buffer))
    (hf : ∀ k ∈ ks, k.length + 2 ≤ frames) :
    ∃ s2 P2, Trie.appendAll frames s this ks = some s2 ∧
      Owns s2 root ((ks.map TireMatching.entry).foldl TireMatching.insert n) P2 ∧
      trieAt s2 this = some (root, buffer) := by
  induction ks generalizing s n P with
  | nil => exact ⟨s, P, rfl, ho, ht⟩
  | cons k ks ih =>
    obtain ⟨s1, P1, a1, a2, a3⟩ :=
      heap_append_owns frames s this root buffer n P k ho ht (hf k (List.mem_cons_self _ _))
    obtain ⟨s2, P2, b1, b2, b3⟩ :=
      ih s1 _ P1 a2 a3 (fun k2 hk2 => hf k2 (List.mem_cons_of_mem _ hk2))
    refine ⟨s2, P2, ?_, b2, b3⟩
    simp only [Trie.appendAll, a1]
    exact b1

/-- The store that the constructor and the appends of `ks` leave, started on the empty
store, holds at the root of the `Trie` instance the trie that the methods on values
build from `ks`, given room on the stack for two more nested calls of `insert` than the
longest keyword has units. -/
theorem heap_build_repr (frames : Nat) (ks : List String)
    (hf : ∀ k ∈ ks, k.length + 2 ≤ frames) :
    ∃ s, Trie.appendAll frames (Trie.new []).2 (Trie.new []).1 ks = some s ∧
      trieAt s (Trie.new []).1 = some (1, 2) ∧
      Repr s 1 (TireMatching.Trie.new.appendAll ks).root := by
  have ho : Owns (Trie.new []).2 1 (TireMatching.Node.fresh 0)
      (fun x => x = 1 ∨ x = 0 ∨ ∃ _ : Char, False) :=
    Owns.mk 1 0 0 (fun _ => none) _ (fun _ _ => False) _ rfl rfl rfl (fun _ => rfl)
      (fun c r2 n2 e _ => absurd e (by simp)) (fun _ _ _ h => h)
      (fun _ _ h => absurd h id) (fun _ _ _ _ h _ => h) (fun _ => Iff.rfl)
  obtain ⟨s, P, h1, h2, h3⟩ := heap_appendAll_owns frames (Trie.new []).2 (Trie.new []).1 1 2
    (TireMatching.Node.fresh 0) _ ks ho rfl hf
  refine ⟨s, h1, h3, ?_⟩
  rw [TireMatching.appendAll_root]
  exact owns_repr _ _ _ _ h2

theorem exampleStore_built :
    Trie.append 3 (Trie.new []).2 (Trie.new []).1 "a" = some exampleStore := by
  rfl

theorem exampleStore_repr :
    Repr exampleStore 1 (TireMatching.Trie.new.appendAll ["a"]).root := by
  have hroot : (TireMatching.Trie.new.appendAll ["a"]).root
      = TireMatching.insert (TireMatching.Node.fresh 0) ['a', sentinel] := rfl
  rw [hroot]
  have hsa : sentinel ≠ 'a' := by decide
  refine Repr.mk 1 0 0 (Function.update (fun _ => none) 'a' (some 6)) _ rfl rfl
    (TireMatching.insert_depth _ _) ?_ ?_
  · intro c
    rw [TireMatching.insert_next]
    by_cases hc : c = 'a' <;> simp [hc, Function.update_apply, TireMatching.Node.fresh]
  · intro c r2 n2 h1 h2
    rw [TireMatching.insert_next] at h2
    by_cases hc : c = 'a'
    · subst hc
      simp only [Function.update_same, Option.some.injEq] at h1
      simp only [if_true, Option.some.injEq, TireMatching.Node.fresh, Option.getD_none] at h2
      subst h1 h2
      refine Repr.mk 6 1 5 (Function.update (fun _ => none) sentinel (some 8)) _ rfl rfl
        (TireMatching.insert_depth _ _) ?_ ?_
      · intro c
        rw [TireMatching.insert_next]
        by_cases hc : c = sentinel <;> simp [hc, Function.update_apply]
      · intro c r3 n3 h3 h4
        rw [TireMatching.insert_next] at h4
        by_cases hc : c = sentinel
        · subst hc
          simp only [Function.update_same, Option.some.injEq] at h3
          simp only [if_true, Option.some.injEq, Option.getD_none] at h4
          subst h3 h4
          exact Repr.mk 8 2 7 (fun _ => none) _ rfl rfl rfl (fun _ => rfl)
            (fun c r4 n4 h5 _ => absurd h5 (by simp))
        · simp [Function.update_apply, hc] at h3
    · simp [Function.update_apply, hc] at h1

/-- Claim C16: on a store that holds a trie at `this.root`, `match` leaves every object
allocated before the call as it was, the `Trie` instance apart: no node, no edge and no
depth field is written. The instance keeps its `root`; its `matched` refers to a new
array, which holds the returned list. That list is the list of the `match` on values, and
a `match` of the same text after any earlier `match` call on the same trie returns the
same list. The call returns exactly when the `match` on values returns on a stack of the
same depth, and so whenever the stack has room for one more nested call of `query` than
the text has units. By `heap_build_repr` the store that the constructor and appends
leave holds a trie at `this.root`. -/
theorem match_frame (frames : Nat) (s : Store) (this root old : Nat)
    (n : TireMatching.Node) (text : String)
    (ht : trieAt s this = some (root, old)) (hr : Repr s root n) :
    ((Trie.match frames s this text).isSome
      = (TireMatching.Trie.matchFrames { root := n, matched := [] } frames text).isSome) ∧
    (text.length + 1 ≤ frames → (Trie.match frames s this text).isSome = true) ∧
    ∀ result s9, Trie.match frames s this text = some (result, s9) →
      (∀ r, r < s.length → r ≠ this → s9[r]? = s[r]?) ∧
      trieAt s9 this = some (root, result) ∧ s.length ≤ result ∧
      Repr s9 root n ∧
      stringsAt s9 result
        = some (TireMatching.Trie.match { root := n, matched := [] } text).2 ∧
      ∀ (earlier : String) (result0 : Nat) (s0 : Store),
        Trie.match frames s this earlier = some (result0, s0) →
        ∃ result2 s2, Trie.match frames s0 this text = some (result2, s2) ∧
          stringsAt s2 result2 = stringsAt s9 result := by
  obtain ⟨i1, i2⟩ := heap_match_sim frames s this root old n text ht hr
  have hroomv : text.length + 1 ≤ frames →
      TireMatching.matchLoopFrames frames n text.toList []
        = some (TireMatching.matchLoop n text.toList []) := by
    intro hroom
    apply TireMatching.matchLoopFrames_eq_matchLoop
    intro S hS
    have := TireMatching.queryCalls_le_length n S
    have h4 : text.toList.length = text.length := rfl
    omega
  cases hv : TireMatching.matchLoopFrames frames n text.toList [] with
  | none =>
    have hnone := i2 hv
    refine ⟨?_, fun hroom => ?_, fun result s9 h => ?_⟩
    · rw [hnone]
      simp only [TireMatching.Trie.matchFrames, hv]
      rfl
    · rw [hroomv hroom] at hv
      exact absurd hv (by simp)
    · rw [hnone] at h
      exact absurd h (by simp)
  | some m =>
    obtain ⟨s9, h1, h2, h3, h4⟩ := i1 m hv
    have hm := TireMatching.matchLoopFrames_some frames n text.toList [] m hv
    refine ⟨?_, fun _ => ?_, fun result s8 h => ?_⟩
    · rw [h1]
      simp only [TireMatching.Trie.matchFrames, hv]
      rfl
    · rw [h1]
      rfl
    · rw [h1] at h
      simp only [Option.some.injEq, Prod.mk.injEq] at h
      obtain ⟨rfl, rfl⟩ := h
      obtain ⟨root1, old1, f1, f2, f3, f4, f5⟩ := heap_match_frame _ _ _ _ _ _ h1
      refine ⟨f5, h4, le_refl _, h3, by rw [h2, hm]; rfl, fun earlier result0 s0 he => ?_⟩
      obtain ⟨e1, e2⟩ := heap_match_sim frames s this root old n earlier ht hr
      cases hve : TireMatching.matchLoopFrames frames n earlier.toList [] with
      | none =>
        rw [e2 hve] at he
        exact absurd he (by simp)
      | some m0 =>
        obtain ⟨s1, g1, -, g3, g4⟩ := e1 m0 hve
        rw [g1] at he
        simp only [Option.some.injEq, Prod.mk.injEq] at he
        obtain ⟨rfl, rfl⟩ := he
        obtain ⟨s2, k1, k2, -, -⟩ :=
          (heap_match_sim frames s1 this root s.length n text g4 g3).1 m hv
        exact ⟨s1.length, s2, k1, by rw [k2, h2]⟩

/-- Witness of claim C16: the store that `new Trie()` and `append("a")` leave, the text
"a cat" and room for six nested calls. -/
theorem match_frame_witness :
    ((Trie.match 6 exampleStore 3 "a cat").isSome
      = (TireMatching.Trie.matchFrames
          { root := (TireMatching.Trie.new.appendAll ["a"]).root, matched := [] }
          6 "a cat").isSome) ∧
    ("a cat".length + 1 ≤ 6 → (Trie.match 6 exampleStore 3 "a cat").isSome = true) ∧
    ∀ result s9, Trie.match 6 exampleStore 3 "a cat" = some (result, s9) →
      (∀ r, r < exampleStore.length → r ≠ 3 → s9[r]? = exampleStore[r]?) ∧
      trieAt s9 3 = some (1, result) ∧ exampleStore.length ≤ result ∧
      Repr s9 1 (TireMatching.Trie.new.appendAll ["a"]).root ∧
      stringsAt s9 result
        = some (TireMatching.Trie.match
            { root := (TireMatching.Trie.new.appendAll ["a"]).root, matched := [] }
            "a cat").2 ∧
      ∀ (earlier : String) (result0 : Nat) (s0 : Store),
        Trie.match 6 exampleStore 3 earlier = some (result0, s0) →
        ∃ result2 s2, Trie.match 6 s0 3 "a cat" = some (result2, s2) ∧
          stringsAt s2 result2 = stringsAt s9 result :=
  match_frame 6 exampleStore 3 1 2 (TireMatching.Trie.new.appendAll ["a"]).root "a cat"
    rfl exampleStore_repr

end Heap
